import Mathlib

/-!
Shallow embedding of the snowstorm NGDP client core (Go) in Lean 4,
with theorems checking the natural-language specification against it.

Conventions:
* Go bytes are `Nat` values (< 256 for real data); Go byte slices and
  strings are `List Nat`.
* Go `[16]byte` MD5 hashes are `List Nat` of length 16.
* Fallible Go functions return `Except`; Go code that can panic
  (out-of-range indexing, nil dereference) returns `GoResult`, whose
  `panicked` constructor marks a runtime panic.
* External collaborators (crypto/md5, compress/zlib) are passed in as
  function parameters; the repository's code never inspects their
  internals, only composes them.
-/

/-- Outcome of running a piece of Go code that may panic at runtime
(out-of-range slice index, nil-pointer dereference) in addition to
returning an error value. -/
inductive GoResult (ε : Type) (α : Type) where
  | panicked : GoResult ε α
  | err : ε → GoResult ε α
  | ok : α → GoResult ε α
deriving DecidableEq, Repr

/-- Big-endian `uint16` of the first two bytes. -/
def be16 (l : List Nat) : Nat := l.getD 0 0 * 256 + l.getD 1 0

/-- Big-endian `uint32` of the first four bytes. -/
def be32 (l : List Nat) : Nat :=
  ((l.getD 0 0 * 256 + l.getD 1 0) * 256 + l.getD 2 0) * 256 + l.getD 3 0

/-- Little-endian `uint16` of the first two bytes. -/
def le16 (l : List Nat) : Nat := l.getD 1 0 * 256 + l.getD 0 0

/-- Modelled from the spec: hashes "have a total order (lexicographic on
raw bytes)".  This is `ngdp.ContentHash.Less` / `ngdp.CDNHash.Less`,
whose Go source is not under `src/`; byte-wise lexicographic comparison
of two equal-length byte arrays. -/
def hashLess : List Nat → List Nat → Bool
  | [], [] => false
  | [], _ :: _ => true
  | _ :: _, [] => false
  | a :: as, b :: bs =>
    if a < b then true
    else if b < a then false
    else hashLess as bs

theorem hashLess_nil_nil : hashLess [] [] = false := rfl

theorem hashLess_nil_cons (b : Nat) (bs : List Nat) : hashLess [] (b :: bs) = true := rfl

theorem hashLess_cons_nil (a : Nat) (as : List Nat) : hashLess (a :: as) [] = false := rfl

theorem hashLess_cons_cons (a b : Nat) (as bs : List Nat) :
    hashLess (a :: as) (b :: bs) =
      (if a < b then true else if b < a then false else hashLess as bs) := rfl

theorem hashLess_irrefl (a : List Nat) : hashLess a a = false := by
  induction a with
  | nil => rfl
  | cons x xs ih => simp [hashLess_cons_cons, ih]

theorem hashLess_trans {a b c : List Nat} (h1 : hashLess a b = true)
    (h2 : hashLess b c = true) : hashLess a c = true := by
  induction a generalizing b c with
  | nil =>
    cases c with
    | nil =>
      cases b with
      | nil => exact h2
      | cons y ys => rw [hashLess_cons_nil] at h2; exact absurd h2 (by simp)
    | cons z zs => exact hashLess_nil_cons z zs
  | cons x xs ih =>
    cases b with
    | nil => rw [hashLess_cons_nil] at h1; exact absurd h1 (by simp)
    | cons y ys =>
      cases c with
      | nil => rw [hashLess_cons_nil] at h2; exact absurd h2 (by simp)
      | cons z zs =>
        rw [hashLess_cons_cons] at h1 h2 ⊢
        by_cases hxy : x < y
        · by_cases hyz : y < z
          · have hxz : x < z := Nat.lt_trans hxy hyz
            simp [hxz]
          · rw [if_neg hyz] at h2
            by_cases hzy : z < y
            · rw [if_pos hzy] at h2; exact absurd h2 (by simp)
            · have hyzeq : y = z := Nat.le_antisymm (Nat.le_of_not_lt hzy) (Nat.le_of_not_lt hyz)
              subst hyzeq
              simp [hxy]
        · rw [if_neg hxy] at h1
          by_cases hyx : y < x
          · rw [if_pos hyx] at h1; exact absurd h1 (by simp)
          · rw [if_neg hyx] at h1
            have hxyeq : x = y := Nat.le_antisymm (Nat.le_of_not_lt hyx) (Nat.le_of_not_lt hxy)
            subst hxyeq
            by_cases hxz : x < z
            · simp [hxz]
            · rw [if_neg hxz] at h2 ⊢
              by_cases hzx : z < x
              · rw [if_pos hzx] at h2; exact absurd h2 (by simp)
              · rw [if_neg hzx] at h2 ⊢
                exact ih h1 h2

/-- Non-strict version of the hash order. -/
def hashLE (a b : List Nat) : Bool := hashLess a b || a == b

/-- The binary-search loop of Go's `sort.Search`:
`i, j := 0, n; for i < j { h := (i+j)/2; if !f(h) { i = h+1 } else { j = h } }; return i`.
The interval shrinks every iteration, so `fuel = j - i` steps always
reach the `i ≥ j` exit; the fuel-out arm returns `i` exactly as the
loop exit does. -/
def searchLoop (f : Nat → Bool) : Nat → Nat → Nat → Nat
  | 0, i, _ => i
  | fuel + 1, i, j =>
    if i < j then
      if f ((i + j) / 2) then searchLoop f fuel i ((i + j) / 2)
      else searchLoop f fuel ((i + j) / 2 + 1) j
    else i

/-- Go's `sort.Search(n, f)`: the smallest index in `[0, n)` at which `f`
holds, assuming `f` is monotone on `[0, n)`, else `n`. -/
def sortSearch (n : Nat) (f : Nat → Bool) : Nat := searchLoop f n 0 n

theorem searchLoop_spec (f : Nat → Bool) (n : Nat)
    (hmono : ∀ a b, a ≤ b → b < n → f a = true → f b = true) :
    ∀ fuel i j, j - i ≤ fuel → i ≤ j → j ≤ n →
      i ≤ searchLoop f fuel i j ∧ searchLoop f fuel i j ≤ j ∧
      (∀ x, i ≤ x → x < searchLoop f fuel i j → f x = false) ∧
      (searchLoop f fuel i j < j → f (searchLoop f fuel i j) = true) := by
  intro fuel
  induction fuel with
  | zero =>
    intro i j hfuel hij hjn
    have hji : i = j := by omega
    subst hji
    rw [searchLoop]
    refine ⟨le_refl i, le_refl i, ?_, ?_⟩
    · intro x h1 h2; omega
    · intro h; omega
  | succ k ih =>
    intro i j hfuel hij hjn
    rw [searchLoop]
    by_cases hlt : i < j
    · rw [if_pos hlt]
      have him : i ≤ (i + j) / 2 := by omega
      have hmj : (i + j) / 2 < j := by omega
      by_cases hf : f ((i + j) / 2) = true
      · rw [hf, if_pos rfl]
        have := ih i ((i + j) / 2) (by omega) him (by omega)
        refine ⟨this.1, by omega, this.2.2.1, ?_⟩
        intro hr
        by_cases hrm : searchLoop f k i ((i + j) / 2) < (i + j) / 2
        · exact this.2.2.2 hrm
        · have heq : searchLoop f k i ((i + j) / 2) = (i + j) / 2 := by omega
          rw [heq]; exact hf
      · have hfF : f ((i + j) / 2) = false := by
          cases hb : f ((i + j) / 2)
          · rfl
          · exact absurd hb hf
        rw [hfF, if_neg (by simp)]
        have := ih ((i + j) / 2 + 1) j (by omega) (by omega) hjn
        refine ⟨by omega, this.2.1, ?_, this.2.2.2⟩
        intro x hx1 hx2
        by_cases hxm : (i + j) / 2 + 1 ≤ x
        · exact this.2.2.1 x hxm hx2
        · have hxle : x ≤ (i + j) / 2 := by omega
          cases hfx : f x
          · rfl
          · have : f ((i + j) / 2) = true := hmono x ((i + j) / 2) hxle (by omega) hfx
            rw [this] at hfF; exact absurd hfF (by simp)
    · rw [if_neg hlt]
      refine ⟨le_refl i, hij, ?_, ?_⟩
      · intro x h1 h2; omega
      · intro h
        have : i = j := by omega
        omega

theorem sortSearch_spec (f : Nat → Bool) (n : Nat)
    (hmono : ∀ a b, a ≤ b → b < n → f a = true → f b = true) :
    sortSearch n f ≤ n ∧
    (∀ x, x < sortSearch n f → f x = false) ∧
    (sortSearch n f < n → f (sortSearch n f) = true) := by
  have := searchLoop_spec f n hmono n 0 n (by omega) (by omega) (le_refl n)
  exact ⟨this.2.1, fun x hx => this.2.2.1 x (Nat.zero_le x) hx, this.2.2.2⟩

/-! ## Encoding mapper (`src/ngdp/encoding/encoding.go`) -/

/-- Parse/lookup errors of the encoding package (`encoding.go` error
constants, plus `shortRead` for wrapped `io` errors and
`pageHashMismatch` for the key-table-entry hash mismatch error). -/
inductive EncErr where
  | badMagic
  | badHashSize
  | unknownContentHash
  | tooManyCDNHashes
  | shortRead
  | pageHashMismatch
deriving DecidableEq, Repr

/-- `encoding.mapEntry`: a content hash with its CDN hashes. -/
structure MapEntry where
  contentHash : List Nat
  cdnHashes : List (List Nat)
deriving DecidableEq, Repr

/-- `encoding.Mapper`: the sorted-array-with-binary-search form. -/
structure EncMapper where
  keys : List MapEntry
deriving DecidableEq, Repr

/-- `m.keys[n].contentHash` as evaluated inside the `sort.Search`
closure (always called in range). -/
def keyHashAt (keys : List MapEntry) (n : Nat) : List Nat :=
  (keys.getD n ⟨[], []⟩).contentHash

/-- `Mapper.ToCDNHash`: binary search on the entry array; misses give
`ErrUnknownContentHash`, entries with a CDN-hash count other than one
give `ErrTooManyCDNHashes`. -/
def ToCDNHash (m : EncMapper) (contentHash : List Nat) : Except EncErr (List Nat) :=
  let i := sortSearch m.keys.length (fun n => ! hashLess (keyHashAt m.keys n) contentHash)
  if h : i < m.keys.length then
    let x := m.keys.get ⟨i, h⟩
    if x.contentHash = contentHash then
      match x.cdnHashes with
      | [v] => .ok v
      | _ => .error .tooManyCDNHashes
    else .error .unknownContentHash
  else .error .unknownContentHash

/-- The parsed fields of the 22-byte encoding header
(`encoding.header`; the two hash-size bytes are checked, not stored). -/
structure EncHeader where
  flagsA : Nat
  flagsB : Nat
  sizeA : Nat
  sizeB : Nat
  stringSize : Nat
deriving DecidableEq, Repr

/-- `Mapper.readHeader`: magic `EN`, hash sizes `0x10`, big-endian
flags, page counts and string-table size. -/
def readEncHeader (r : List Nat) : Except EncErr (EncHeader × List Nat) :=
  if r.length < 22 then .error .shortRead
  else if (r.take 22).getD 0 0 ≠ 69 ∨ (r.take 22).getD 1 0 ≠ 78 then .error .badMagic
  else if (r.take 22).getD 3 0 ≠ 16 ∨ (r.take 22).getD 4 0 ≠ 16 then .error .badHashSize
  else .ok ({ flagsA := be16 ((r.take 22).drop 5), flagsB := be16 ((r.take 22).drop 7),
              sizeA := be32 ((r.take 22).drop 9), sizeB := be32 ((r.take 22).drop 13),
              stringSize := be32 ((r.take 22).drop 18) }, r.drop 22)

/-- The key-table-index read loop: `sizeA` records of 32 bytes, keeping
the last 16 bytes (the expected page MD5) of each. -/
def readIndexRecords : Nat → List Nat → Except EncErr (List (List Nat) × List Nat)
  | 0, r => .ok ([], r)
  | n + 1, r =>
    if r.length < 32 then .error .shortRead
    else
      match readIndexRecords n (r.drop 32) with
      | .error e => .error e
      | .ok (hs, rest) => .ok ((r.take 32).drop 16 :: hs, rest)

/-- The inner loop of `Mapper.init` reading `cdnKeyCount` 16-byte CDN
hashes off the front of `keybuf`; Go panics if the page buffer runs
out mid-entry (out-of-range reslice). -/
def readCDNKeys : Nat → List Nat → GoResult EncErr (List (List Nat) × List Nat)
  | 0, keybuf => .ok ([], keybuf)
  | c + 1, keybuf =>
    if keybuf.length < 16 then .panicked
    else
      match readCDNKeys c (keybuf.drop 16) with
      | .panicked => .panicked
      | .err e => .err e
      | .ok (ks, rest) => .ok (keybuf.take 16 :: ks, rest)

theorem readCDNKeys_ok : ∀ (c : Nat) (kb ks rest : _), readCDNKeys c kb = .ok (ks, rest) →
    ks = (List.range c).map (fun k => (kb.drop (16 * k)).take 16) ∧ rest = kb.drop (16 * c) := by
  intro c
  induction c with
  | zero =>
    intro kb ks rest h
    simp [readCDNKeys] at h
    simp [h.1, h.2]
  | succ n ih =>
    intro kb ks rest h
    rw [readCDNKeys] at h
    by_cases hlen : kb.length < 16
    · rw [if_pos hlen] at h; exact absurd h (by simp)
    · rw [if_neg hlen] at h
      cases hrec : readCDNKeys n (kb.drop 16) with
      | panicked => rw [hrec] at h; exact absurd h (by simp)
      | err e => rw [hrec] at h; exact absurd h (by simp)
      | ok p =>
        obtain ⟨ks0, rest0⟩ := p
        rw [hrec] at h
        simp only [GoResult.ok.injEq, Prod.mk.injEq] at h
        obtain ⟨hks, hrest⟩ := h
        have := ih (kb.drop 16) ks0 rest0 hrec
        constructor
        · have hfun : (fun k => List.take 16 (List.drop (16 * k) (List.drop 16 kb))) =
              (fun k => List.take 16 (List.drop (16 * (k + 1)) kb)) := by
            funext k
            rw [List.drop_drop]
            congr 2
            omega
          rw [← hks, this.1, hfun, List.range_succ_eq_map, List.map_cons, List.map_map]
          simp [Function.comp_def]
        · rw [← hrest, this.2, List.drop_drop]
          congr 1
          omega

theorem readCDNKeys_length_le : ∀ (c : Nat) (kb ks rest : _),
    readCDNKeys c kb = .ok (ks, rest) → rest.length ≤ kb.length := by
  intro c kb ks rest h
  have := (readCDNKeys_ok c kb ks rest h).2
  subst this
  simp

/-- The per-page parse loop of `Mapper.init`: read a little-endian
`cdnKeyCount`; zero terminates the page; otherwise take the content
hash at offset 6, the CDN hashes after offset 22, and repeat. -/
def parsePage (keybuf : List Nat) : GoResult EncErr (List MapEntry) :=
  if keybuf.length < 2 then .panicked
  else if le16 keybuf = 0 then .ok []
  else if keybuf.length < 22 then .panicked
  else
    match hks : readCDNKeys (le16 keybuf) (keybuf.drop 22) with
    | .panicked => .panicked
    | .err e => .err e
    | .ok (ks, rest) =>
      match parsePage rest with
      | .panicked => .panicked
      | .err e => .err e
      | .ok es => .ok ({ contentHash := (keybuf.drop 6).take 16, cdnHashes := ks } :: es)
termination_by keybuf.length
decreasing_by
  have hle := readCDNKeys_length_le _ _ _ _ hks
  simp only [List.length_drop] at hle
  omega

/-- The page-reading loop of `Mapper.init`: `sizeA` pages of 4096
bytes, each MD5-checked against its key-table-index record, then
parsed; entry lists are concatenated in page order. -/
def readPages (md5fn : List Nat → List Nat) :
    Nat → List (List Nat) → List Nat → GoResult EncErr (List MapEntry × List Nat)
  | 0, _, r => .ok ([], r)
  | n + 1, expected, r =>
    if r.length < 4096 then .err .shortRead
    else
      if ¬ ((List.range 16).all fun x =>
          (md5fn (r.take 4096)).getD x 0 == (expected.headD []).getD x 0) then
        .err .pageHashMismatch
      else
        match parsePage (r.take 4096) with
        | .panicked => .panicked
        | .err e => .err e
        | .ok es =>
          match readPages md5fn n (expected.drop 1) (r.drop 4096) with
          | .panicked => .panicked
          | .err e => .err e
          | .ok (es', rest) => .ok (es ++ es', rest)

/-- `Mapper.init` / `encoding.NewMapper`, with the external
`crypto/md5` digest passed in as `md5fn`: header, string-table skip,
key table index, MD5-verified pages, layout-table skip. -/
def NewEncMapper (md5fn : List Nat → List Nat) (r : List Nat) : GoResult EncErr EncMapper :=
  match readEncHeader r with
  | .error e => .err e
  | .ok (h, r1) =>
    if r1.length < h.stringSize then .err .shortRead
    else
      match readIndexRecords h.sizeA (r1.drop h.stringSize) with
      | .error e => .err e
      | .ok (hashes, r2) =>
        match readPages md5fn h.sizeA hashes r2 with
        | .panicked => .panicked
        | .err e => .err e
        | .ok (entries, r3) =>
          if r3.length < h.sizeB * 32 % 2 ^ 32 then .err .shortRead
          else if (r3.drop (h.sizeB * 32 % 2 ^ 32)).length < h.sizeB * 4096 % 2 ^ 32 then
            .err .shortRead
          else .ok { keys := entries }

/-- The entry array is weakly ascending by content hash
(lexicographic on raw bytes). -/
def keysSortedLE (l : List MapEntry) : Prop :=
  List.Pairwise (fun a b => hashLE a.contentHash b.contentHash = true) l

/-- The entry array is strictly ascending by content hash. -/
def keysSortedLT (l : List MapEntry) : Prop :=
  List.Pairwise (fun a b => hashLess a.contentHash b.contentHash = true) l

theorem keyHashAt_of_lt {keys : List MapEntry} {n : Nat} (h : n < keys.length) :
    keyHashAt keys n = (keys.get ⟨n, h⟩).contentHash := by
  simp [keyHashAt, List.getD_eq_getElem?_getD, List.getElem?_eq_getElem h]

theorem sortSearch_finds (m : EncMapper) (k : List Nat)
    (hsort : keysSortedLT m.keys) (t : Nat) (ht : t < m.keys.length)
    (hk : (m.keys.get ⟨t, ht⟩).contentHash = k) :
    sortSearch m.keys.length (fun n => ! hashLess (keyHashAt m.keys n) k) = t := by
  have hpair : ∀ (i j : Fin m.keys.length), i < j →
      hashLess (m.keys.get i).contentHash (m.keys.get j).contentHash = true := by
    rw [keysSortedLT, List.pairwise_iff_get] at hsort
    exact hsort
  set f : Nat → Bool := fun n => ! hashLess (keyHashAt m.keys n) k with hf
  have hmono : ∀ a b, a ≤ b → b < m.keys.length → f a = true → f b = true := by
    intro a b hab hb hfa
    by_contra hfb
    have hfb' : hashLess (keyHashAt m.keys b) k = true := by
      cases hx : hashLess (keyHashAt m.keys b) k
      · rw [hf] at hfb; simp [hx] at hfb
      · rfl
    rcases Nat.lt_or_ge a b with hlt | hge
    · have ha : a < m.keys.length := Nat.lt_trans hlt hb
      have := hpair ⟨a, ha⟩ ⟨b, hb⟩ hlt
      rw [← keyHashAt_of_lt ha, ← keyHashAt_of_lt hb] at this
      have : hashLess (keyHashAt m.keys a) k = true := hashLess_trans this hfb'
      rw [hf] at hfa; simp [this] at hfa
    · have hab' : a = b := Nat.le_antisymm hab hge
      subst hab'
      rw [hf] at hfa; simp [hfb'] at hfa
  have hspec := sortSearch_spec f m.keys.length hmono
  have hft : f t = true := by
    rw [hf]
    simp only [keyHashAt_of_lt ht, hk, hashLess_irrefl]
    rfl
  have hbelow : ∀ x, x < t → f x = false := by
    intro x hx
    have hxlen : x < m.keys.length := Nat.lt_trans hx ht
    have h3 := hpair ⟨x, hxlen⟩ ⟨t, ht⟩ hx
    rw [hk] at h3
    show (! hashLess (keyHashAt m.keys x) k) = false
    rw [keyHashAt_of_lt hxlen, h3]
    rfl
  rcases Nat.lt_trichotomy (sortSearch m.keys.length f) t with hlt | heq | hgt
  · have h1 : f (sortSearch m.keys.length f) = true :=
      hspec.2.2 (Nat.lt_trans hlt ht)
    have h2 : f (sortSearch m.keys.length f) = false := hbelow _ hlt
    rw [h1] at h2; exact absurd h2 (by simp)
  · exact heq
  · have h1 : f t = false := hspec.2.1 t hgt
    rw [hft] at h1; exact absurd h1 (by simp)

/-- C2: with a sorted entry array, `ToCDNHash` misses with
`ErrUnknownContentHash`, returns `ErrTooManyCDNHashes` on entries with
two or more CDN hashes, and returns the single CDN hash otherwise. -/
theorem ToCDNHash_lookup_cases (m : EncMapper) (k : List Nat)
    (hsort : keysSortedLT m.keys) :
    ((∀ e ∈ m.keys, e.contentHash ≠ k) →
      ToCDNHash m k = .error .unknownContentHash) ∧
    (∀ t (ht : t < m.keys.length), (m.keys.get ⟨t, ht⟩).contentHash = k →
      (2 ≤ (m.keys.get ⟨t, ht⟩).cdnHashes.length →
        ToCDNHash m k = .error .tooManyCDNHashes) ∧
      (∀ v, (m.keys.get ⟨t, ht⟩).cdnHashes = [v] → ToCDNHash m k = .ok v)) := by
  constructor
  · intro habs
    rw [ToCDNHash]
    by_cases hi : sortSearch m.keys.length (fun n => ! hashLess (keyHashAt m.keys n) k) <
        m.keys.length
    · rw [dif_pos hi]
      have hmem : m.keys.get ⟨_, hi⟩ ∈ m.keys := List.get_mem _ _ _
      rw [if_neg (habs _ hmem)]
    · rw [dif_neg hi]
  · intro t ht hk
    have hfind := sortSearch_finds m k hsort t ht hk
    constructor
    · intro hlen
      rw [ToCDNHash]
      rw [dif_pos (hfind ▸ ht)]
      have hget : m.keys.get ⟨sortSearch m.keys.length
          (fun n => ! hashLess (keyHashAt m.keys n) k), hfind ▸ ht⟩ = m.keys.get ⟨t, ht⟩ := by
        congr 1
        exact Fin.ext hfind
      rw [hget, if_pos hk]
      cases hc : (m.keys.get ⟨t, ht⟩).cdnHashes with
      | nil => rfl
      | cons v vs =>
        cases vs with
        | nil => rw [hc] at hlen; simp at hlen
        | cons w ws => rfl
    · intro v hv
      rw [ToCDNHash]
      rw [dif_pos (hfind ▸ ht)]
      have hget : m.keys.get ⟨sortSearch m.keys.length
          (fun n => ! hashLess (keyHashAt m.keys n) k), hfind ▸ ht⟩ = m.keys.get ⟨t, ht⟩ := by
        congr 1
        exact Fin.ext hfind
      rw [hget, if_pos hk, hv]

/-- A small concrete sorted mapper used to witness the lookup theorem. -/
def c2mapper : EncMapper :=
  ⟨[⟨[0, 0], [[9, 9]]⟩, ⟨[0, 1], [[7, 7], [8, 8]]⟩]⟩

/-- Witness for the lookup-cases theorem at a concrete sorted mapper:
single-hash hit, multi-hash entry, and a miss. -/
theorem ToCDNHash_lookup_cases_witness :
    ToCDNHash c2mapper [0, 0] = .ok [9, 9] ∧
    ToCDNHash c2mapper [0, 1] = .error .tooManyCDNHashes ∧
    ToCDNHash c2mapper [1, 0] = .error .unknownContentHash := by
  have hs : keysSortedLT c2mapper.keys := by
    rw [keysSortedLT, c2mapper]
    decide
  refine ⟨?_, ?_, ?_⟩
  · exact ((ToCDNHash_lookup_cases c2mapper [0, 0] hs).2 0 (by decide) (by decide)).2
      [9, 9] (by decide)
  · exact ((ToCDNHash_lookup_cases c2mapper [0, 1] hs).2 1 (by decide) (by decide)).1
      (by decide)
  · exact (ToCDNHash_lookup_cases c2mapper [1, 0] hs).1 (by decide)

/-- Modelled from the spec (§4.D step 4): the entries emitted from one
4096-byte page, in order — a little-endian u16 `cdn_key_count` (zero
ends the page), 4 bytes of unused size information, a 16-byte content
hash, then `cdn_key_count` 16-byte CDN hashes per entry.  `fuel`
bounds the number of entries; the page length suffices. -/
def specPageEntries : Nat → List Nat → List MapEntry
  | 0, _ => []
  | fuel + 1, p =>
    if le16 p = 0 then []
    else
      { contentHash := (p.drop 6).take 16,
        cdnHashes := (List.range (le16 p)).map fun k => (p.drop (22 + 16 * k)).take 16 } ::
        specPageEntries fuel (p.drop (22 + 16 * le16 p))

/-- Modelled from the spec (§4.D): entries of `sizeA` consecutive
4096-byte pages, concatenated in page order. -/
def specPagesEntries : Nat → List Nat → List MapEntry
  | 0, _ => []
  | n + 1, r => specPageEntries 4096 (r.take 4096) ++ specPagesEntries n (r.drop 4096)

/-- Modelled from the spec (§4.D): all entries emitted from an
encoding blob in input order — 22-byte header (`sizeA` at offset 9,
string-table size at offset 18, both big-endian u32), `string_size`
skipped bytes, `sizeA` 32-byte index records, then the pages. -/
def specEncEntries (blob : List Nat) : List MapEntry :=
  specPagesEntries (be32 ((blob.take 22).drop 9))
    (((blob.drop 22).drop (be32 ((blob.take 22).drop 18))).drop
      (32 * be32 ((blob.take 22).drop 9)))

theorem parsePage_spec : ∀ (fuel : Nat) (kb : List Nat) (es : List MapEntry),
    kb.length ≤ fuel → parsePage kb = .ok es → es = specPageEntries fuel kb := by
  intro fuel
  induction fuel with
  | zero =>
    intro kb es hlen h
    have : kb.length < 2 := by omega
    rw [parsePage, if_pos this] at h
    exact absurd h (by simp)
  | succ n ih =>
    intro kb es hlen h
    rw [parsePage] at h
    by_cases h2 : kb.length < 2
    · rw [if_pos h2] at h; exact absurd h (by simp)
    · rw [if_neg h2] at h
      by_cases hc : le16 kb = 0
      · rw [if_pos hc] at h
        simp only [GoResult.ok.injEq] at h
        rw [specPageEntries, if_pos hc, ← h]
      · rw [if_neg hc] at h
        by_cases h22 : kb.length < 22
        · rw [if_pos h22] at h; exact absurd h (by simp)
        · rw [if_neg h22] at h
          split at h
          · exact absurd h (by simp)
          · exact absurd h (by simp)
          · rename_i ks rest hks
            split at h
            · exact absurd h (by simp)
            · exact absurd h (by simp)
            · rename_i es' hrec
              simp only [GoResult.ok.injEq] at h
              obtain ⟨hks', hrest'⟩ := readCDNKeys_ok _ _ _ _ hks
              have hrl : rest.length ≤ n := by
                rw [hrest']
                simp only [List.length_drop]
                omega
              have hes' := ih rest es' hrl hrec
              rw [specPageEntries, if_neg hc, ← h]
              congr 1
              · congr 1
                rw [hks']
                refine List.map_congr_left ?_
                intro a _
                rw [List.drop_drop]
              · rw [hes', hrest', List.drop_drop]

theorem readPages_spec (md5fn : List Nat → List Nat) :
    ∀ (n : Nat) (expected : List (List Nat)) (r : List Nat) (es : List MapEntry)
      (rest : List Nat), readPages md5fn n expected r = .ok (es, rest) →
      es = specPagesEntries n r := by
  intro n
  induction n with
  | zero =>
    intro expected r es rest h
    simp only [readPages, GoResult.ok.injEq, Prod.mk.injEq] at h
    rw [specPagesEntries, ← h.1]
  | succ k ih =>
    intro expected r es rest h
    rw [readPages] at h
    by_cases hlen : r.length < 4096
    · rw [if_pos hlen] at h; exact absurd h (by simp)
    · rw [if_neg hlen] at h
      split at h
      · exact absurd h (by simp)
      · split at h
        · exact absurd h (by simp)
        · exact absurd h (by simp)
        · rename_i es0 hpp
          split at h
          · exact absurd h (by simp)
          · exact absurd h (by simp)
          · rename_i es1 rest1 hrp
            simp only [GoResult.ok.injEq, Prod.mk.injEq] at h
            have h0 : es0 = specPageEntries 4096 (r.take 4096) :=
              parsePage_spec 4096 (r.take 4096) es0 (by simp) hpp
            have h1 : es1 = specPagesEntries k (r.drop 4096) :=
              ih (expected.drop 1) (r.drop 4096) es1 rest1 hrp
            rw [specPagesEntries, ← h.1, h0, h1]

theorem readEncHeader_ok {r : List Nat} {h : EncHeader} {rest : List Nat}
    (he : readEncHeader r = .ok (h, rest)) :
    h.sizeA = be32 ((r.take 22).drop 9) ∧ h.sizeB = be32 ((r.take 22).drop 13) ∧
    h.stringSize = be32 ((r.take 22).drop 18) ∧ rest = r.drop 22 := by
  rw [readEncHeader] at he
  by_cases h1 : r.length < 22
  · rw [if_pos h1] at he; exact absurd he (by simp)
  · rw [if_neg h1] at he
    by_cases hm : (r.take 22).getD 0 0 ≠ 69 ∨ (r.take 22).getD 1 0 ≠ 78
    · rw [if_pos hm] at he; exact absurd he (by simp)
    · rw [if_neg hm] at he
      by_cases hz : (r.take 22).getD 3 0 ≠ 16 ∨ (r.take 22).getD 4 0 ≠ 16
      · rw [if_pos hz] at he; exact absurd he (by simp)
      · rw [if_neg hz] at he
        simp only [Except.ok.injEq, Prod.mk.injEq] at he
        obtain ⟨hh, hr⟩ := he
        rw [← hh, ← hr]
        exact ⟨rfl, rfl, rfl, rfl⟩

theorem readIndexRecords_ok : ∀ (n : Nat) (r : List Nat) (hs : List (List Nat))
    (rest : List Nat), readIndexRecords n r = .ok (hs, rest) → rest = r.drop (32 * n) := by
  intro n
  induction n with
  | zero =>
    intro r hs rest h
    simp only [readIndexRecords, Except.ok.injEq, Prod.mk.injEq] at h
    rw [← h.2]
    simp
  | succ k ih =>
    intro r hs rest h
    rw [readIndexRecords] at h
    by_cases hlen : r.length < 32
    · rw [if_pos hlen] at h; exact absurd h (by simp)
    · rw [if_neg hlen] at h
      split at h
      · exact absurd h (by simp)
      · rename_i hs0 rest0 hrec
        simp only [Except.ok.injEq, Prod.mk.injEq] at h
        have := ih (r.drop 32) hs0 rest0 hrec
        rw [← h.2, this, List.drop_drop]
        congr 1
        omega

/-- C1 (amended): `NewMapper` performs no sort — its entry array is
exactly the entries emitted from the pages in input order, and hence
is ascending precisely when the blob's entries already are. -/
theorem NewEncMapper_keys_pageOrder (md5fn : List Nat → List Nat) (blob : List Nat)
    (m : EncMapper) (h : NewEncMapper md5fn blob = .ok m) :
    m.keys = specEncEntries blob ∧
    (List.Pairwise (fun a b => hashLE a.contentHash b.contentHash = true)
        (specEncEntries blob) → keysSortedLE m.keys) := by
  have hmain : m.keys = specEncEntries blob := by
    rw [NewEncMapper] at h
    split at h
    · exact absurd h (by simp)
    · rename_i hd r1 hhdr
      by_cases hstr : r1.length < hd.stringSize
      · rw [if_pos hstr] at h; exact absurd h (by simp)
      · rw [if_neg hstr] at h
        split at h
        · exact absurd h (by simp)
        · rename_i hashes r2 hidx
          split at h
          · exact absurd h (by simp)
          · exact absurd h (by simp)
          · rename_i entries r3 hpg
            by_cases hs1 : r3.length < hd.sizeB * 32 % 2 ^ 32
            · rw [if_pos hs1] at h; exact absurd h (by simp)
            · rw [if_neg hs1] at h
              by_cases hs2 : (r3.drop (hd.sizeB * 32 % 2 ^ 32)).length <
                  hd.sizeB * 4096 % 2 ^ 32
              · rw [if_pos hs2] at h; exact absurd h (by simp)
              · rw [if_neg hs2] at h
                simp only [GoResult.ok.injEq] at h
                obtain ⟨hA, hB, hS, hr1⟩ := readEncHeader_ok hhdr
                have hr2 : r2 = (r1.drop hd.stringSize).drop (32 * hd.sizeA) :=
                  readIndexRecords_ok hd.sizeA (r1.drop hd.stringSize) hashes r2 hidx
                have hes : entries = specPagesEntries hd.sizeA r2 :=
                  readPages_spec md5fn hd.sizeA hashes r2 entries r3 hpg
                rw [← h]
                show entries = specEncEntries blob
                rw [hes, hr2, hr1, specEncEntries, ← hA, ← hS]
  exact ⟨hmain, fun hp => by rw [keysSortedLE, hmain]; exact hp⟩

theorem parsePage_zeros (k : Nat) : parsePage (List.replicate (k + 2) 0) = .ok [] := by
  have h1 : ¬ (List.replicate (k + 2) (0 : Nat)).length < 2 := by
    simp only [List.length_replicate]; omega
  have h2 : le16 (List.replicate (k + 2) 0) = 0 := by
    simp [le16, List.replicate_succ, -List.reduceReplicate]
  rw [parsePage, if_neg h1, if_pos h2]

theorem parsePage_entry (a b c d : Nat) (ch ck rest : List Nat) (es : List MapEntry)
    (hch : ch.length = 16) (hck : ck.length = 16)
    (hrest : parsePage rest = .ok es) :
    parsePage (1 :: 0 :: a :: b :: c :: d :: (ch ++ (ck ++ rest))) =
      .ok (⟨ch, [ck]⟩ :: es) := by
  have hlen : (1 :: 0 :: a :: b :: c :: d :: (ch ++ (ck ++ rest))).length =
      38 + rest.length := by
    simp only [List.length_cons, List.length_append, hch, hck]
    omega
  have h1 : ¬ (1 :: 0 :: a :: b :: c :: d :: (ch ++ (ck ++ rest))).length < 2 := by
    rw [hlen]; omega
  have hle : le16 (1 :: 0 :: a :: b :: c :: d :: (ch ++ (ck ++ rest))) = 1 := by
    simp [le16, List.getD_cons_succ, List.getD_cons_zero]
  have h2 : ¬ le16 (1 :: 0 :: a :: b :: c :: d :: (ch ++ (ck ++ rest))) = 0 := by
    rw [hle]; omega
  have h3 : ¬ (1 :: 0 :: a :: b :: c :: d :: (ch ++ (ck ++ rest))).length < 22 := by
    rw [hlen]; omega
  have hdrop22 : (1 :: 0 :: a :: b :: c :: d :: (ch ++ (ck ++ rest))).drop 22 = ck ++ rest := by
    show (ch ++ (ck ++ rest)).drop 16 = ck ++ rest
    exact List.drop_left' hch
  have hdrop6 : ((1 :: 0 :: a :: b :: c :: d :: (ch ++ (ck ++ rest))).drop 6).take 16 = ch := by
    show (ch ++ (ck ++ rest)).take 16 = ch
    exact List.take_left' hch
  have hrck : readCDNKeys (le16 (1 :: 0 :: a :: b :: c :: d :: (ch ++ (ck ++ rest))))
      ((1 :: 0 :: a :: b :: c :: d :: (ch ++ (ck ++ rest))).drop 22) = .ok ([ck], rest) := by
    rw [hle, hdrop22]
    have h16 : ¬ (ck ++ rest).length < 16 := by
      simp only [List.length_append, hck]; omega
    have hd16 : (ck ++ rest).drop 16 = rest := List.drop_left' hck
    have ht16 : (ck ++ rest).take 16 = ck := List.take_left' hck
    show readCDNKeys (0 + 1) (ck ++ rest) = .ok ([ck], rest)
    rw [readCDNKeys, if_neg h16, hd16]
    rw [show readCDNKeys 0 rest = .ok ([], rest) from rfl, ht16]
  rw [parsePage, if_neg h1, if_neg h2, if_neg h3]
  split
  · rename_i hx; rw [hrck] at hx; exact absurd hx (by simp)
  · rename_i e hx; rw [hrck] at hx; exact absurd hx (by simp)
  · rename_i ks' rest' hx
    rw [hrck] at hx
    simp only [GoResult.ok.injEq, Prod.mk.injEq] at hx
    rw [← hx.1, ← hx.2, hrest, hdrop6]

/-- The out-of-order page used in the counterexample: two entries whose
content hashes descend (`ff…ff` before `01…01`), then zero padding. -/
def encPageCE : List Nat :=
  1 :: 0 :: 0 :: 0 :: 0 :: 0 :: (List.replicate 16 255 ++ (List.replicate 16 3 ++
    (1 :: 0 :: 0 :: 0 :: 0 :: 0 :: (List.replicate 16 1 ++ (List.replicate 16 4 ++
      List.replicate 4020 0)))))

def encEntryHi : MapEntry := ⟨List.replicate 16 255, [List.replicate 16 3]⟩

def encEntryLo : MapEntry := ⟨List.replicate 16 1, [List.replicate 16 4]⟩

theorem parsePage_encPageCE : parsePage encPageCE = .ok [encEntryHi, encEntryLo] := by
  have h0 : parsePage (List.replicate 4020 (0 : Nat)) = .ok [] := by
    have := parsePage_zeros 4018
    norm_num at this
    exact this
  have h1 : parsePage (1 :: 0 :: 0 :: 0 :: 0 :: 0 ::
      (List.replicate 16 1 ++ (List.replicate 16 4 ++ List.replicate 4020 0))) =
      .ok [encEntryLo] :=
    parsePage_entry 0 0 0 0 _ _ _ _ (by simp [-List.reduceReplicate])
      (by simp [-List.reduceReplicate]) h0
  exact parsePage_entry 0 0 0 0 _ _ _ _ (by simp [-List.reduceReplicate])
    (by simp [-List.reduceReplicate]) h1

theorem encPageCE_length : encPageCE.length = 4096 := by
  simp only [encPageCE, List.length_cons, List.length_append, List.length_replicate]

theorem readEncHeader_append (hdr rest : List Nat) (h22 : hdr.length = 22)
    (hm : ¬ (hdr.getD 0 0 ≠ 69 ∨ hdr.getD 1 0 ≠ 78))
    (hz : ¬ (hdr.getD 3 0 ≠ 16 ∨ hdr.getD 4 0 ≠ 16)) :
    readEncHeader (hdr ++ rest) =
      .ok ({ flagsA := be16 (hdr.drop 5), flagsB := be16 (hdr.drop 7),
             sizeA := be32 (hdr.drop 9), sizeB := be32 (hdr.drop 13),
             stringSize := be32 (hdr.drop 18) }, rest) := by
  have hlen : ¬ (hdr ++ rest).length < 22 := by
    simp only [List.length_append, h22]; omega
  have htake : (hdr ++ rest).take 22 = hdr := List.take_left' h22
  have hdrop : (hdr ++ rest).drop 22 = rest := List.drop_left' h22
  rw [readEncHeader, if_neg hlen, htake, hdrop, if_neg hm, if_neg hz]

theorem readIndexRecords_one (idx rest : List Nat) (h32 : idx.length = 32) :
    readIndexRecords 1 (idx ++ rest) = .ok ([idx.drop 16], rest) := by
  have hlen : ¬ (idx ++ rest).length < 32 := by
    simp only [List.length_append, h32]; omega
  have htake : (idx ++ rest).take 32 = idx := List.take_left' h32
  have hdrop : (idx ++ rest).drop 32 = rest := List.drop_left' h32
  show readIndexRecords (0 + 1) (idx ++ rest) = .ok ([idx.drop 16], rest)
  rw [readIndexRecords, if_neg hlen, hdrop]
  rw [show readIndexRecords 0 rest = .ok ([], rest) from rfl, htake]

theorem readPages_one (md5fn : List Nat → List Nat) (page stored : List Nat)
    (es : List MapEntry) (hlen : page.length = 4096)
    (hhash : ((List.range 16).all fun x =>
      (md5fn page).getD x 0 == stored.getD x 0) = true)
    (hpp : parsePage page = .ok es) :
    readPages md5fn 1 [stored] page = .ok (es, []) := by
  have h1 : ¬ page.length < 4096 := by omega
  have htake : page.take 4096 = page := List.take_of_length_le (by omega)
  have hdrop : page.drop 4096 = [] := List.drop_of_length_le (by omega)
  show readPages md5fn (0 + 1) [stored] page = .ok (es, [])
  rw [readPages, if_neg h1, htake]
  have hsd : ([stored].headD []) = stored := rfl
  rw [hsd, hhash]
  rw [if_neg (by simp)]
  rw [hpp, hdrop]
  rw [show readPages md5fn 0 ([stored].drop 1) [] = .ok ([], []) from rfl]
  simp

/-- A well-formed 22-byte header declaring `sizeA = 1`, `sizeB = 0`,
`stringSize = 0`. -/
def encHdrCE : List Nat :=
  [69, 78, 0, 16, 16, 0, 0, 0, 0, 0, 0, 0, 1, 0, 0, 0, 0, 0, 0, 0, 0, 0]

/-- The counterexample blob: header, one index record whose stored page
MD5 is sixteen zero bytes, and the out-of-order page. -/
def encBlobCE : List Nat := encHdrCE ++ (List.replicate 32 0 ++ encPageCE)

theorem NewEncMapper_eval (md5fn : List Nat → List Nat) (r r1 r2 r3 : List Nat)
    (h : EncHeader) (hashes : List (List Nat)) (entries : List MapEntry)
    (hh : readEncHeader r = .ok (h, r1))
    (hss : ¬ r1.length < h.stringSize)
    (hix : readIndexRecords h.sizeA (r1.drop h.stringSize) = .ok (hashes, r2))
    (hpg : readPages md5fn h.sizeA hashes r2 = .ok (entries, r3))
    (hb1 : ¬ r3.length < h.sizeB * 32 % 2 ^ 32)
    (hb2 : ¬ (r3.drop (h.sizeB * 32 % 2 ^ 32)).length < h.sizeB * 4096 % 2 ^ 32) :
    NewEncMapper md5fn r = .ok { keys := entries } := by
  unfold NewEncMapper
  rw [hh]
  simp only []
  rw [if_neg hss, hix]
  simp only []
  rw [hpg]
  simp only []
  rw [if_neg hb1, if_neg hb2]

theorem NewEncMapper_encBlobCE :
    NewEncMapper (fun _ => List.replicate 16 0) encBlobCE =
      .ok ⟨[encEntryHi, encEntryLo]⟩ := by
  have hfields : ({ flagsA := be16 (encHdrCE.drop 5), flagsB := be16 (encHdrCE.drop 7),
                    sizeA := be32 (encHdrCE.drop 9), sizeB := be32 (encHdrCE.drop 13),
                    stringSize := be32 (encHdrCE.drop 18) } : EncHeader) = ⟨0, 0, 1, 0, 0⟩ := by
    decide
  have hhdr : readEncHeader encBlobCE =
      .ok ((⟨0, 0, 1, 0, 0⟩ : EncHeader), List.replicate 32 0 ++ encPageCE) := by
    show readEncHeader (encHdrCE ++ (List.replicate 32 0 ++ encPageCE)) = _
    rw [readEncHeader_append encHdrCE _ (by decide) (by decide) (by decide), hfields]
  have hidx : readIndexRecords (1 : Nat)
      ((List.replicate 32 0 ++ encPageCE).drop (0 : Nat)) =
      .ok ([List.replicate 16 0], encPageCE) := by
    rw [List.drop_zero]
    rw [readIndexRecords_one (List.replicate 32 0) encPageCE (by simp [-List.reduceReplicate])]
    rw [List.drop_replicate]
  have hpg : readPages (fun _ => List.replicate 16 0) 1 [List.replicate 16 0] encPageCE =
      .ok ([encEntryHi, encEntryLo], []) :=
    readPages_one _ _ _ _ encPageCE_length (by decide) parsePage_encPageCE
  exact NewEncMapper_eval _ _ _ _ _ _ _ _ hhdr (by simp) hidx hpg (by simp) (by simp)

/-- C1 counterexample: a well-formed encoding blob (magic `EN`, hash
sizes `0x10`, page MD5 matching) whose page stores its entries in
descending hash order; `NewMapper` accepts it and the resulting entry
array is not sorted ascending by content hash. -/
theorem NewEncMapper_accepts_unsorted :
    NewEncMapper (fun _ => List.replicate 16 0) encBlobCE =
      .ok ⟨[encEntryHi, encEntryLo]⟩ ∧
    ¬ keysSortedLE (EncMapper.keys ⟨[encEntryHi, encEntryLo]⟩) := by
  refine ⟨NewEncMapper_encBlobCE, ?_⟩
  rw [keysSortedLE]
  intro hp
  have h1 := (List.pairwise_cons.mp hp).1 encEntryLo (by simp)
  exact absurd h1 (by decide)

/-- A well-formed header-only blob declaring zero pages. -/
def encHdrW : List Nat :=
  [69, 78, 0, 16, 16, 0, 0, 0, 0, 0, 0, 0, 0, 0, 0, 0, 0, 0, 0, 0, 0, 0]

/-- Witness for the amended entry-order theorem at a concrete accepted
blob. -/
theorem NewEncMapper_keys_pageOrder_witness :
    NewEncMapper (fun _ => List.replicate 16 0) encHdrW = .ok ⟨[]⟩ ∧
    EncMapper.keys ⟨[]⟩ = specEncEntries encHdrW ∧
    keysSortedLE (EncMapper.keys ⟨[]⟩) := by
  have h : NewEncMapper (fun _ => List.replicate 16 0) encHdrW = .ok ⟨[]⟩ := by decide
  have h2 := NewEncMapper_keys_pageOrder (fun _ => List.replicate 16 0) encHdrW ⟨[]⟩ h
  refine ⟨h, h2.1, h2.2 ?_⟩
  rw [show specEncEntries encHdrW = [] from rfl]
  exact List.Pairwise.nil

/-! ## BLTE container decoder (`src/unnamed/part_009`, package `blte`) -/

/-- `blte.chunkInfo`: one 24-byte chunk record. -/
structure ChunkInfo where
  compressedSize : Nat
  decompressedSize : Nat
  checksum : List Nat
deriving DecidableEq, Repr

/-- Errors of the `blte` package (`ErrBadMagic`, the header-length
error, unsupported compression, checksum mismatch, plus `shortRead`
for `io.ErrUnexpectedEOF` from partial reads and `zlibErr` for
`compress/zlib` failures). -/
inductive BlteErr where
  | badMagic
  | shortRead
  | headerLengthMismatch
  | unsupportedCompression (cm : Nat)
  | checksumMismatch (chunk : Nat)
  | zlibErr
deriving DecidableEq, Repr

/-- The chunk-record read loop of `Reader.readHeader`: `chunkCount`
24-byte records.  `none` models the clean-`io.EOF` outcome of
`readBytes` when the stream ends exactly at a record boundary (the
outer `ReadAll` then stops without error). -/
def readChunkInfos : Nat → List Nat → Except BlteErr (Option (List ChunkInfo × List Nat))
  | 0, r => .ok (some ([], r))
  | n + 1, r =>
    if r.length = 0 then .ok none
    else if r.length < 24 then .error .shortRead
    else
      match readChunkInfos n (r.drop 24) with
      | .error e => .error e
      | .ok none => .ok none
      | .ok (some (cs, rest)) =>
        .ok (some ({ compressedSize := be32 r, decompressedSize := be32 (r.drop 4),
                     checksum := ((r.drop 8).take 16) } :: cs, rest))

/-- The per-chunk MD5 comparison of `Reader.readChunk`: sixteen
byte-wise comparisons of the digest against the declared checksum. -/
def chunkHashOK (md5fn : List Nat → List Nat) (hashed chk : List Nat) : Bool :=
  (List.range 16).all fun x => (md5fn hashed).getD x 0 == chk.getD x 0

/-- The chunked read loop of `blte.Reader`: each `Read` pulls the next
chunk through a `LimitedReader` of the declared compressed size and a
hashing reader, dispatches on the compression-mode byte (`'N'` = 78
copies, `'Z'` = 90 inflates via the external `zd`), then compares the
MD5 of the bytes actually consumed (mode byte included) against the
declared checksum.  Running out of chunk records ends the stream
(`io.EOF`); an empty mode-byte read also ends it cleanly. -/
def decodeChunks (md5fn : List Nat → List Nat)
    (zd : List Nat → Except Unit (List Nat × Nat)) :
    List ChunkInfo → Nat → List Nat → Except BlteErr (List Nat)
  | [], _, _ => .ok []
  | c :: cs, idx, s =>
    if (s.take c.compressedSize).length < 1 then .ok []
    else if (s.take c.compressedSize).getD 0 0 = 78 then
      if chunkHashOK md5fn
          (s.take (1 + ((s.take c.compressedSize).drop 1).length)) c.checksum then
        match decodeChunks md5fn zd cs (idx + 1)
            (s.drop (1 + ((s.take c.compressedSize).drop 1).length)) with
        | .error e => .error e
        | .ok t => .ok ((s.take c.compressedSize).drop 1 ++ t)
      else .error (.checksumMismatch idx)
    else if (s.take c.compressedSize).getD 0 0 = 90 then
      match zd ((s.take c.compressedSize).drop 1) with
      | .error _ => .error .zlibErr
      | .ok (data, used) =>
        if chunkHashOK md5fn
            (s.take (1 + min used ((s.take c.compressedSize).drop 1).length)) c.checksum then
          match decodeChunks md5fn zd cs (idx + 1)
              (s.drop (1 + min used ((s.take c.compressedSize).drop 1).length)) with
          | .error e => .error e
          | .ok t => .ok (data ++ t)
        else .error (.checksumMismatch idx)
    else .error (.unsupportedCompression ((s.take c.compressedSize).getD 0 0))

/-- The implicit-chunk loop (`header_size == 0`): no chunk records, no
limit, no checksum; each iteration reads a mode byte and a body until
the stream ends. -/
def decodeImplicit (zd : List Nat → Except Unit (List Nat × Nat)) :
    List Nat → Except BlteErr (List Nat)
  | [] => .ok []
  | cm :: body =>
    if cm = 78 then .ok body
    else if cm = 90 then
      match zd body with
      | .error _ => .error .zlibErr
      | .ok (data, used) =>
        match decodeImplicit zd (body.drop (min used body.length)) with
        | .error e => .error e
        | .ok t => .ok (data ++ t)
    else .error (.unsupportedCompression cm)
termination_by s => s.length
decreasing_by
  simp only [List.length_drop, List.length_cons]
  omega

/-- `blte.NewReader` followed by `ioutil.ReadAll` (how the repository
consumes the reader): parse the 8-byte magic/header-size, then either
the implicit single chunk or the chunk-record table (header length
arithmetic wraps as Go `uint32` does) followed by the chunk loop. -/
def blteDecode (md5fn : List Nat → List Nat)
    (zd : List Nat → Except Unit (List Nat × Nat)) (s : List Nat) :
    Except BlteErr (List Nat) :=
  if s.length = 0 then .ok []
  else if s.length < 8 then .error .shortRead
  else if ¬ ((s.take 8).getD 0 0 = 66 ∧ (s.take 8).getD 1 0 = 76 ∧
             (s.take 8).getD 2 0 = 84 ∧ (s.take 8).getD 3 0 = 69) then .error .badMagic
  else if be32 ((s.take 8).drop 4) = 0 then decodeImplicit zd (s.drop 8)
  else if (s.drop 8).length = 0 then .ok []
  else if (s.drop 8).length < 4 then .error .shortRead
  else
    match readChunkInfos (be32 (0 :: ((s.drop 8).take 4).drop 1)) (s.drop 12) with
    | .error e => .error e
    | .ok none => .ok []
    | .ok (some (chunks, rest)) =>
      if ((be32 ((s.take 8).drop 4) : Int) - 12 -
          24 * (be32 (0 :: ((s.drop 8).take 4).drop 1) : Int)) % 2 ^ 32 ≠ 0 then
        .error .headerLengthMismatch
      else decodeChunks md5fn zd chunks 0 rest

/-- Big-endian 4-byte encoding of a `u32`. -/
def be32bytes (n : Nat) : List Nat :=
  [n / 2 ^ 24 % 256, n / 2 ^ 16 % 256, n / 2 ^ 8 % 256, n % 256]

/-- Modelled from the spec (§4.C): a chunk of the chunked framing — a
compression mode (`'N'` = 78 or `'Z'` = 90) and the payload piece it
carries. -/
structure BlteChunk where
  mode : Nat
  data : List Nat
deriving DecidableEq, Repr

/-- Modelled from the spec (§4.C): a chunk's on-wire body — the mode
byte followed by the verbatim (`'N'`) or zlib-compressed (`'Z'`, via
the external compressor `zc`) payload. -/
def chunkBody (zc : List Nat → List Nat) (c : BlteChunk) : List Nat :=
  if c.mode = 90 then 90 :: zc c.data else 78 :: c.data

/-- Modelled from the spec (§4.C): the chunked framing with explicitly
declared checksums — magic `BLTE`, header size `8 + 4 + 24·n`, a zero
flags byte, big-endian u24 chunk count, `n` 24-byte records
`(compressed_size, decompressed_size, md5)`, then the bodies. -/
def blteFrame (zc : List Nat → List Nat) (chunks : List BlteChunk)
    (checks : List (List Nat)) : List Nat :=
  [66, 76, 84, 69] ++ be32bytes (12 + 24 * chunks.length) ++
  (0 :: ((be32bytes chunks.length).drop 1 ++
   (((List.zip chunks checks).map fun p =>
      be32bytes (chunkBody zc p.1).length ++ (be32bytes p.1.data.length ++ p.2)).flatten ++
   (chunks.map (chunkBody zc)).flatten)))

/-- Modelled from the spec (§4.C): the correct framing of a chunk
list, declaring each chunk's genuine digest. -/
def blteEncode (md5fn zc : List Nat → List Nat) (chunks : List BlteChunk) : List Nat :=
  blteFrame zc chunks (chunks.map fun c => md5fn (chunkBody zc c))

theorem be32_be32bytes (n : Nat) (rest : List Nat) (h : n < 2 ^ 32) :
    be32 (be32bytes n ++ rest) = n := by
  simp only [be32, be32bytes, List.cons_append, List.nil_append,
    List.getD_cons_zero, List.getD_cons_succ]
  omega

theorem chunkHashOK_self (md5fn : List Nat → List Nat) (hashed : List Nat) :
    chunkHashOK md5fn hashed (md5fn hashed) = true := by
  simp [chunkHashOK]

theorem chunkHashOK_eq_iff (md5fn : List Nat → List Nat) (hashed chk : List Nat)
    (hm : (md5fn hashed).length = 16) (hc : chk.length = 16) :
    chunkHashOK md5fn hashed chk = true ↔ md5fn hashed = chk := by
  constructor
  · intro h
    apply List.ext_getElem (by rw [hm, hc])
    intro i h1 h2
    rw [chunkHashOK, List.all_eq_true] at h
    have := h i (by rw [List.mem_range]; omega)
    have hg : (md5fn hashed).getD i 0 = chk.getD i 0 := by
      exact eq_of_beq this
    rw [List.getD_eq_getElem?_getD, List.getD_eq_getElem?_getD] at hg
    rw [List.getElem?_eq_getElem h1, List.getElem?_eq_getElem h2] at hg
    simpa using hg
  · intro h
    rw [← h]
    exact chunkHashOK_self md5fn hashed

theorem chunkBody_length_pos (zc : List Nat → List Nat) (c : BlteChunk) :
    1 ≤ (chunkBody zc c).length := by
  rw [chunkBody]
  by_cases h : c.mode = 90
  · rw [if_pos h]; simp
  · rw [if_neg h]; simp

theorem decodeChunks_cons_ok (md5fn : List Nat → List Nat)
    (zc : List Nat → List Nat) (zd : List Nat → Except Unit (List Nat × Nat))
    (c : BlteChunk) (chk : List Nat) (d : Nat) (cs : List ChunkInfo) (idx : Nat)
    (rest : List Nat)
    (hmode : c.mode = 78 ∨ c.mode = 90)
    (hz : c.mode = 90 → zd (zc c.data) = .ok (c.data, (zc c.data).length))
    (hok : chunkHashOK md5fn (chunkBody zc c) chk = true) :
    decodeChunks md5fn zd (⟨(chunkBody zc c).length, d, chk⟩ :: cs) idx
        (chunkBody zc c ++ rest) =
      match decodeChunks md5fn zd cs (idx + 1) rest with
      | .error e => .error e
      | .ok t => .ok (c.data ++ t) := by
  have htake : (chunkBody zc c ++ rest).take (chunkBody zc c).length = chunkBody zc c :=
    List.take_left _ _
  have hdrop : (chunkBody zc c ++ rest).drop (chunkBody zc c).length = rest :=
    List.drop_left _ _
  rcases hmode with hN | hZ
  · have hbody : chunkBody zc c = 78 :: c.data := by rw [chunkBody, hN]; simp
    have hb2 : (chunkBody zc c).drop 1 = c.data := by rw [hbody]; simp
    rw [decodeChunks, htake]
    rw [if_neg (by rw [hbody]; simp)]
    rw [if_pos (by rw [hbody]; simp [List.getD_cons_zero])]
    rw [hb2]
    have hlen : 1 + c.data.length = (chunkBody zc c).length := by
      rw [hbody]; simp [Nat.add_comm]
    rw [hlen, htake, hdrop, if_pos hok]
  · have hbody : chunkBody zc c = 90 :: zc c.data := by rw [chunkBody, hZ]; simp
    have hb2 : (chunkBody zc c).drop 1 = zc c.data := by rw [hbody]; simp
    rw [decodeChunks, htake]
    rw [if_neg (by rw [hbody]; simp)]
    rw [if_neg (by rw [hbody]; simp [List.getD_cons_zero])]
    rw [if_pos (by rw [hbody]; simp [List.getD_cons_zero])]
    rw [hb2]
    split
    · rename_i hxx
      rw [hz hZ] at hxx
      exact absurd hxx (by simp)
    · rename_i data used hxx
      rw [hz hZ] at hxx
      simp only [Except.ok.injEq, Prod.mk.injEq] at hxx
      obtain ⟨hd, hu⟩ := hxx
      subst hd
      subst hu
      rw [Nat.min_self]
      have hlen : 1 + (zc c.data).length = (chunkBody zc c).length := by
        rw [hbody]; simp [Nat.add_comm]
      rw [hlen, htake, hdrop, if_pos hok]

theorem decodeChunks_cons_mismatch (md5fn : List Nat → List Nat)
    (zc : List Nat → List Nat) (zd : List Nat → Except Unit (List Nat × Nat))
    (c : BlteChunk) (chk : List Nat) (d : Nat) (cs : List ChunkInfo) (idx : Nat)
    (rest : List Nat)
    (hmode : c.mode = 78 ∨ c.mode = 90)
    (hz : c.mode = 90 → zd (zc c.data) = .ok (c.data, (zc c.data).length))
    (hbad : chunkHashOK md5fn (chunkBody zc c) chk = false) :
    decodeChunks md5fn zd (⟨(chunkBody zc c).length, d, chk⟩ :: cs) idx
        (chunkBody zc c ++ rest) = .error (.checksumMismatch idx) := by
  have htake : (chunkBody zc c ++ rest).take (chunkBody zc c).length = chunkBody zc c :=
    List.take_left _ _
  rcases hmode with hN | hZ
  · have hbody : chunkBody zc c = 78 :: c.data := by rw [chunkBody, hN]; simp
    have hb2 : (chunkBody zc c).drop 1 = c.data := by rw [hbody]; simp
    rw [decodeChunks, htake]
    rw [if_neg (by rw [hbody]; simp)]
    rw [if_pos (by rw [hbody]; simp [List.getD_cons_zero])]
    rw [hb2]
    have hlen : 1 + c.data.length = (chunkBody zc c).length := by
      rw [hbody]; simp [Nat.add_comm]
    rw [hlen, htake, if_neg (by rw [hbad]; simp)]
  · have hbody : chunkBody zc c = 90 :: zc c.data := by rw [chunkBody, hZ]; simp
    have hb2 : (chunkBody zc c).drop 1 = zc c.data := by rw [hbody]; simp
    rw [decodeChunks, htake]
    rw [if_neg (by rw [hbody]; simp)]
    rw [if_neg (by rw [hbody]; simp [List.getD_cons_zero])]
    rw [if_pos (by rw [hbody]; simp [List.getD_cons_zero])]
    rw [hb2]
    split
    · rename_i hxx
      rw [hz hZ] at hxx
      exact absurd hxx (by simp)
    · rename_i data used hxx
      rw [hz hZ] at hxx
      simp only [Except.ok.injEq, Prod.mk.injEq] at hxx
      obtain ⟨hd, hu⟩ := hxx
      subst hd
      subst hu
      rw [Nat.min_self]
      have hlen : 1 + (zc c.data).length = (chunkBody zc c).length := by
        rw [hbody]; simp [Nat.add_comm]
      rw [hlen, htake, if_neg (by rw [hbad]; simp)]

theorem be32_be32bytes_self (n : Nat) (h : n < 2 ^ 32) : be32 (be32bytes n) = n := by
  simp only [be32, be32bytes, List.getD_cons_zero, List.getD_cons_succ]
  omega

theorem readChunkInfos_frame (zc : List Nat → List Nat) :
    ∀ (chunks : List BlteChunk) (checks : List (List Nat)) (tail : List Nat),
    checks.length = chunks.length →
    (∀ k ∈ checks, k.length = 16) →
    (∀ c ∈ chunks, (chunkBody zc c).length < 2 ^ 32) →
    readChunkInfos chunks.length
      ((((List.zip chunks checks).map fun p =>
        be32bytes (chunkBody zc p.1).length ++ (be32bytes p.1.data.length ++ p.2)).flatten) ++
        tail) =
      .ok (some ((List.zip chunks checks).map fun p =>
        (⟨(chunkBody zc p.1).length, p.1.data.length % 2 ^ 32, p.2⟩ : ChunkInfo), tail)) := by
  intro chunks
  induction chunks with
  | nil =>
    intro checks tail hlen hk hb
    simp [readChunkInfos]
  | cons c cs ih =>
    intro checks tail hlen hk hb
    cases checks with
    | nil => simp at hlen
    | cons k ks =>
      have hk16 : k.length = 16 := hk k (by simp)
      have hbl : (chunkBody zc c).length < 2 ^ 32 := hb c (by simp)
      simp only [List.zip_cons_cons, List.map_cons, List.flatten_cons, List.length_cons]
      have hreclen : (be32bytes (chunkBody zc c).length ++
          (be32bytes c.data.length ++ k)).length = 24 := by
        simp [be32bytes, hk16]
      set recs := ((List.zip cs ks).map fun p =>
        be32bytes (chunkBody zc p.1).length ++ (be32bytes p.1.data.length ++ p.2)).flatten
        with hrecs
      have hassoc : be32bytes (chunkBody zc c).length ++ (be32bytes c.data.length ++ k) ++
          recs ++ tail =
          (be32bytes (chunkBody zc c).length ++ (be32bytes c.data.length ++ k)) ++
            (recs ++ tail) := by
        simp [List.append_assoc]
      rw [hassoc]
      set r := (be32bytes (chunkBody zc c).length ++ (be32bytes c.data.length ++ k)) ++
        (recs ++ tail) with hr
      have hrlen : r.length = 24 + (recs ++ tail).length := by
        rw [hr, List.length_append, hreclen]
      rw [readChunkInfos]
      rw [if_neg (by rw [hrlen]; omega)]
      rw [if_neg (by rw [hrlen]; omega)]
      have hdrop24 : r.drop 24 = recs ++ tail := by
        rw [hr]
        exact List.drop_left' hreclen
      rw [hdrop24]
      rw [ih ks tail (by simpa using hlen) (fun x hx => hk x (by simp [hx]))
        (fun x hx => hb x (by simp [hx]))]
      have hbe1 : be32 r = (chunkBody zc c).length := by
        rw [hr, List.append_assoc]
        exact be32_be32bytes _ _ hbl
      have hdrop4 : r.drop 4 = be32bytes c.data.length ++ (k ++ (recs ++ tail)) := by
        rw [hr, List.append_assoc, List.append_assoc]
        rw [List.drop_left' (by simp [be32bytes])]
      have hbe2 : be32 (r.drop 4) = c.data.length % 2 ^ 32 := by
        rw [hdrop4]
        simp only [be32, be32bytes, List.cons_append, List.nil_append,
          List.getD_cons_zero, List.getD_cons_succ]
        omega
      have hdrop8 : r.drop 8 = k ++ (recs ++ tail) := by
        have : r.drop 8 = (r.drop 4).drop 4 := by rw [List.drop_drop]
        rw [this, hdrop4]
        rw [List.drop_left' (by simp [be32bytes])]
      have htake16 : (r.drop 8).take 16 = k := by
        rw [hdrop8]
        exact List.take_left' hk16
      rw [hbe1, hbe2, htake16]

theorem decodeChunks_frame_ok (md5fn : List Nat → List Nat)
    (zc : List Nat → List Nat) (zd : List Nat → Except Unit (List Nat × Nat)) :
    ∀ (chunks : List BlteChunk) (checks : List (List Nat)) (idx : Nat),
    checks.length = chunks.length →
    (∀ c ∈ chunks, c.mode = 78 ∨ c.mode = 90) →
    (∀ c ∈ chunks, c.mode = 90 → zd (zc c.data) = .ok (c.data, (zc c.data).length)) →
    (∀ p ∈ List.zip chunks checks, chunkHashOK md5fn (chunkBody zc p.1) p.2 = true) →
    decodeChunks md5fn zd
      ((List.zip chunks checks).map fun p =>
        (⟨(chunkBody zc p.1).length, p.1.data.length % 2 ^ 32, p.2⟩ : ChunkInfo)) idx
      ((chunks.map (chunkBody zc)).flatten) =
      .ok ((chunks.map BlteChunk.data).flatten) := by
  intro chunks
  induction chunks with
  | nil =>
    intro checks idx hlen hmode hz hok
    simp [decodeChunks]
  | cons c cs ih =>
    intro checks idx hlen hmode hz hok
    cases checks with
    | nil => simp at hlen
    | cons k ks =>
      simp only [List.zip_cons_cons, List.map_cons, List.flatten_cons]
      rw [decodeChunks_cons_ok md5fn zc zd c k (c.data.length % 2 ^ 32) _ idx _
        (hmode c (by simp)) (hz c (by simp)) (hok (c, k) (by simp))]
      rw [ih ks (idx + 1) (by simpa using hlen)
        (fun x hx => hmode x (by simp [hx]))
        (fun x hx => hz x (by simp [hx]))
        (fun p hp => hok p (by simp [List.mem_cons]; right; exact hp))]

theorem decodeChunks_frame_mismatch (md5fn : List Nat → List Nat)
    (zc : List Nat → List Nat) (zd : List Nat → Except Unit (List Nat × Nat)) :
    ∀ (chunks : List BlteChunk) (checks : List (List Nat)) (idx : Nat) (i : Nat)
      (hlen : checks.length = chunks.length)
      (hmode : ∀ c ∈ chunks, c.mode = 78 ∨ c.mode = 90)
      (hz : ∀ c ∈ chunks, c.mode = 90 → zd (zc c.data) = .ok (c.data, (zc c.data).length))
      (hi : i < chunks.length)
      (hbefore : ∀ j (hj : j < i),
        chunkHashOK md5fn (chunkBody zc (chunks.get ⟨j, by omega⟩))
          (checks.get ⟨j, by omega⟩) = true)
      (hat : chunkHashOK md5fn (chunkBody zc (chunks.get ⟨i, hi⟩))
        (checks.get ⟨i, by omega⟩) = false),
    decodeChunks md5fn zd
      ((List.zip chunks checks).map fun p =>
        (⟨(chunkBody zc p.1).length, p.1.data.length % 2 ^ 32, p.2⟩ : ChunkInfo)) idx
      ((chunks.map (chunkBody zc)).flatten) =
      .error (.checksumMismatch (idx + i)) := by
  intro chunks
  induction chunks with
  | nil =>
    intro checks idx i hlen hmode hz hi
    simp at hi
  | cons c cs ih =>
    intro checks idx i hlen hmode hz hi hbefore hat
    cases checks with
    | nil => simp at hlen
    | cons k ks =>
      simp only [List.zip_cons_cons, List.map_cons, List.flatten_cons]
      cases i with
      | zero =>
        have hbad : chunkHashOK md5fn (chunkBody zc c) k = false := by
          simpa using hat
        rw [decodeChunks_cons_mismatch md5fn zc zd c k (c.data.length % 2 ^ 32) _ idx _
          (hmode c (by simp)) (hz c (by simp)) hbad]
        rw [Nat.add_zero]
      | succ i' =>
        have hok0 : chunkHashOK md5fn (chunkBody zc c) k = true := by
          simpa using hbefore 0 (by omega)
        rw [decodeChunks_cons_ok md5fn zc zd c k (c.data.length % 2 ^ 32) _ idx _
          (hmode c (by simp)) (hz c (by simp)) hok0]
        have hi' : i' < cs.length := by simpa using Nat.lt_of_succ_lt_succ hi
        have hrec := ih ks (idx + 1) i' (by simpa using hlen)
          (fun x hx => hmode x (by simp [hx]))
          (fun x hx => hz x (by simp [hx]))
          hi'
          (fun j hj => by simpa using hbefore (j + 1) (by omega))
          (by simpa using hat)
        rw [hrec]
        have harith : idx + 1 + i' = idx + (i' + 1) := by omega
        rw [harith]

theorem be32_zero_u24 (n : Nat) (h : n < 2 ^ 24) :
    be32 (0 :: (be32bytes n).drop 1) = n := by
  simp only [be32bytes, List.drop_succ_cons, List.drop_zero, be32,
    List.getD_cons_zero, List.getD_cons_succ]
  omega

theorem blteDecode_frame (md5fn : List Nat → List Nat)
    (zc : List Nat → List Nat) (zd : List Nat → Except Unit (List Nat × Nat))
    (chunks : List BlteChunk) (checks : List (List Nat))
    (hlen : checks.length = chunks.length)
    (hcount : chunks.length < 2 ^ 24)
    (hchk : ∀ k ∈ checks, k.length = 16)
    (hbody : ∀ c ∈ chunks, (chunkBody zc c).length < 2 ^ 32) :
    blteDecode md5fn zd (blteFrame zc chunks checks) =
      decodeChunks md5fn zd
        ((List.zip chunks checks).map fun p =>
          (⟨(chunkBody zc p.1).length, p.1.data.length % 2 ^ 32, p.2⟩ : ChunkInfo)) 0
        ((chunks.map (chunkBody zc)).flatten) := by
  have hhdr32 : 12 + 24 * chunks.length < 2 ^ 32 := by omega
  have hAB : ([66, 76, 84, 69] ++ be32bytes (12 + 24 * chunks.length)).length = 8 := by
    simp [be32bytes]
  have hframe : blteFrame zc chunks checks =
      ([66, 76, 84, 69] ++ be32bytes (12 + 24 * chunks.length)) ++
      (0 :: ((be32bytes chunks.length).drop 1 ++
        ((((List.zip chunks checks).map fun p =>
          be32bytes (chunkBody zc p.1).length ++ (be32bytes p.1.data.length ++ p.2)).flatten) ++
        (chunks.map (chunkBody zc)).flatten))) := by
    rw [blteFrame, List.append_assoc]
  rw [hframe]
  set C : List Nat := 0 :: ((be32bytes chunks.length).drop 1 ++
    ((((List.zip chunks checks).map fun p =>
      be32bytes (chunkBody zc p.1).length ++ (be32bytes p.1.data.length ++ p.2)).flatten) ++
    (chunks.map (chunkBody zc)).flatten)) with hC
  set s : List Nat := ([66, 76, 84, 69] ++ be32bytes (12 + 24 * chunks.length)) ++ C with hs
  have hslen : s.length = 8 + C.length := by
    rw [hs, List.length_append, hAB]
  have htake8 : s.take 8 = [66, 76, 84, 69] ++ be32bytes (12 + 24 * chunks.length) := by
    rw [hs]; exact List.take_left' hAB
  have hdrop8 : s.drop 8 = C := by
    rw [hs]; exact List.drop_left' hAB
  have hmagic : (s.take 8).getD 0 0 = 66 ∧ (s.take 8).getD 1 0 = 76 ∧
      (s.take 8).getD 2 0 = 84 ∧ (s.take 8).getD 3 0 = 69 := by
    rw [htake8]
    simp [List.getD_cons_zero, List.getD_cons_succ]
  have hbe : be32 ((s.take 8).drop 4) = 12 + 24 * chunks.length := by
    rw [htake8]
    rw [List.drop_left' (by simp)]
    exact be32_be32bytes_self _ hhdr32
  have hu24len : ((be32bytes chunks.length).drop 1).length = 3 := by
    simp [be32bytes]
  have hClen : C.length = 4 + ((((List.zip chunks checks).map fun p =>
      be32bytes (chunkBody zc p.1).length ++ (be32bytes p.1.data.length ++ p.2)).flatten) ++
      (chunks.map (chunkBody zc)).flatten).length := by
    rw [hC]
    simp only [List.length_cons, List.length_append, hu24len]
    omega
  have htakeC : C.take 4 = 0 :: (be32bytes chunks.length).drop 1 := by
    rw [hC]
    rw [List.take_succ_cons]
    rw [List.take_left' hu24len]
  have hcc : be32 (0 :: ((s.drop 8).take 4).drop 1) = chunks.length := by
    rw [hdrop8, htakeC, List.drop_succ_cons, List.drop_zero]
    exact be32_zero_u24 _ hcount
  have hdrop12 : s.drop 12 = (((List.zip chunks checks).map fun p =>
      be32bytes (chunkBody zc p.1).length ++ (be32bytes p.1.data.length ++ p.2)).flatten) ++
      (chunks.map (chunkBody zc)).flatten := by
    have h1 : s.drop 12 = (s.drop 8).drop 4 := by rw [List.drop_drop]
    rw [h1, hdrop8, hC, List.drop_succ_cons]
    rw [List.drop_left' hu24len]
  rw [blteDecode]
  rw [if_neg (by rw [hslen]; omega)]
  rw [if_neg (by rw [hslen]; omega)]
  rw [if_neg (not_not_intro hmagic)]
  rw [if_neg (by rw [hbe]; omega)]
  rw [if_neg (by rw [hdrop8, hClen]; omega)]
  rw [if_neg (by rw [hdrop8, hClen]; omega)]
  rw [hcc, hdrop12]
  rw [readChunkInfos_frame zc chunks checks _ hlen hchk hbody]
  simp only []
  rw [if_neg (by omega)]

theorem mem_zip_map_self {α β : Type} (f : α → β) :
    ∀ (l : List α) (p : α × β), p ∈ l.zip (l.map f) → p.2 = f p.1 := by
  intro l
  induction l with
  | nil =>
    intro p hp
    simp at hp
  | cons a as ih =>
    intro p hp
    simp only [List.map_cons, List.zip_cons_cons, List.mem_cons] at hp
    rcases hp with h | h
    · rw [h]
    · exact ih p h

/-- C3: the container decoder is byte-exact.  For every payload (the
concatenation of the chunk pieces), every legal chunking of it, and
either compression mode per chunk, decoding the correct framing
(correct header size, per-chunk sizes and MD5 checksums) yields
exactly the payload.  The external zlib pair is assumed to round-trip
and the digest to be 16 bytes wide. -/
theorem blteDecode_blteEncode (md5fn zc : List Nat → List Nat)
    (zd : List Nat → Except Unit (List Nat × Nat)) (chunks : List BlteChunk)
    (hcount : chunks.length < 2 ^ 24)
    (hmd5 : ∀ b, (md5fn b).length = 16)
    (hbodylen : ∀ c ∈ chunks, (chunkBody zc c).length < 2 ^ 32)
    (hmode : ∀ c ∈ chunks, c.mode = 78 ∨ c.mode = 90)
    (hz : ∀ c ∈ chunks, c.mode = 90 → zd (zc c.data) = .ok (c.data, (zc c.data).length)) :
    blteDecode md5fn zd (blteEncode md5fn zc chunks) =
      .ok ((chunks.map BlteChunk.data).flatten) := by
  rw [blteEncode]
  rw [blteDecode_frame md5fn zc zd chunks _ (by simp) hcount
    (by
      intro k hk
      simp only [List.mem_map] at hk
      obtain ⟨c, _, hc⟩ := hk
      rw [← hc]
      exact hmd5 _) hbodylen]
  refine decodeChunks_frame_ok md5fn zc zd chunks _ 0 (by simp) hmode hz ?_
  intro p hp
  have h2 := mem_zip_map_self (fun c => md5fn (chunkBody zc c)) chunks p hp
  rw [h2]
  exact chunkHashOK_self md5fn (chunkBody zc p.1)

/-- C4: when chunk records are present and some chunk's declared
checksum differs from the MD5 of its full compressed body (mode byte
included), decoding fails with the checksum-mismatch error at the
first such chunk; no payload is returned. -/
theorem blteDecode_checksum_mismatch (md5fn zc : List Nat → List Nat)
    (zd : List Nat → Except Unit (List Nat × Nat)) (chunks : List BlteChunk)
    (checks : List (List Nat)) (i : Nat)
    (hlen : checks.length = chunks.length)
    (hcount : chunks.length < 2 ^ 24)
    (hchk : ∀ k ∈ checks, k.length = 16)
    (hmd5 : ∀ b, (md5fn b).length = 16)
    (hbodylen : ∀ c ∈ chunks, (chunkBody zc c).length < 2 ^ 32)
    (hmode : ∀ c ∈ chunks, c.mode = 78 ∨ c.mode = 90)
    (hz : ∀ c ∈ chunks, c.mode = 90 → zd (zc c.data) = .ok (c.data, (zc c.data).length))
    (hi : i < chunks.length)
    (hbefore : ∀ j (hj : j < i),
      md5fn (chunkBody zc (chunks.get ⟨j, by omega⟩)) = checks.get ⟨j, by omega⟩)
    (hat : md5fn (chunkBody zc (chunks.get ⟨i, hi⟩)) ≠ checks.get ⟨i, by omega⟩) :
    blteDecode md5fn zd (blteFrame zc chunks checks) =
      .error (.checksumMismatch i) := by
  rw [blteDecode_frame md5fn zc zd chunks checks hlen hcount hchk hbodylen]
  have hafalse : chunkHashOK md5fn (chunkBody zc (chunks.get ⟨i, hi⟩))
      (checks.get ⟨i, by omega⟩) = false := by
    cases hb : chunkHashOK md5fn (chunkBody zc (chunks.get ⟨i, hi⟩))
        (checks.get ⟨i, by omega⟩)
    · rfl
    · exact absurd ((chunkHashOK_eq_iff md5fn _ _ (hmd5 _)
        (hchk _ (List.get_mem _ _ _))).mp hb) hat
  have := decodeChunks_frame_mismatch md5fn zc zd chunks checks 0 i hlen hmode hz hi
    (fun j hj => (chunkHashOK_eq_iff md5fn _ _ (hmd5 _)
      (hchk _ (List.get_mem _ _ _))).mpr (hbefore j hj))
    hafalse
  rw [this]
  rw [Nat.zero_add]

/-- Concrete external collaborators for the container witnesses: a
constant 16-byte digest, a compressor that prepends one byte, and the
matching decompressor. -/
def md5W : List Nat → List Nat := fun _ => List.replicate 16 7

def zcW : List Nat → List Nat := fun l => 7 :: l

def zdW : List Nat → Except Unit (List Nat × Nat) := fun s => .ok (s.drop 1, s.length)

/-- A two-chunk payload mixing both compression modes. -/
def blteChunksW : List BlteChunk := [⟨78, [1, 2]⟩, ⟨90, [3]⟩]

/-- Witness for the round-trip theorem at a concrete two-chunk framing
mixing modes `'N'` and `'Z'`. -/
theorem blteDecode_blteEncode_witness :
    blteDecode md5W zdW (blteEncode md5W zcW blteChunksW) = .ok [1, 2, 3] := by
  have h := blteDecode_blteEncode md5W zcW zdW blteChunksW (by decide)
    (fun b => rfl) (by decide) (by decide)
    (by
      intro c hc hm
      simp only [blteChunksW, List.mem_cons, List.mem_singleton] at hc
      rcases hc with rfl | hc
      · exact absurd hm (by decide)
      · rcases hc with rfl | hc
        · rfl
        · simp at hc)
  simpa using h

/-- Witness for the checksum-mismatch theorem: a single `'N'` chunk
whose declared checksum differs from its digest. -/
theorem blteDecode_checksum_mismatch_witness :
    blteDecode md5W zdW (blteFrame zcW [⟨78, [5]⟩] [List.replicate 16 9]) =
      .error (.checksumMismatch 0) := by
  exact blteDecode_checksum_mismatch md5W zcW zdW [⟨78, [5]⟩] [List.replicate 16 9] 0
    (by decide) (by decide) (by decide) (fun b => rfl) (by decide) (by decide)
    (by
      intro c hc hm
      simp only [List.mem_cons, List.mem_singleton] at hc
      rcases hc with rfl | hc
      · exact absurd hm (by decide)
      · simp at hc)
    (by decide) (fun j hj => absurd hj (by omega)) (by decide)

/-! ## Key-value decoder, fixed byte-array case
(`src/ngdp/keyvalue/keyvalue.go`, `setValue` lines 123-131) -/

/-- Go `encoding/hex` digit decoding (`fromHexChar`): `0-9`, `a-f`,
`A-F`. -/
def fromHexChar (c : Nat) : Option Nat :=
  if 48 ≤ c ∧ c ≤ 57 then some (c - 48)
  else if 97 ≤ c ∧ c ≤ 102 then some (c - 97 + 10)
  else if 65 ≤ c ∧ c ≤ 70 then some (c - 65 + 10)
  else none

/-- Go `hex.DecodeString`: decode hex-digit pairs; an odd length or an
invalid digit is an error. -/
def hexDecode : List Nat → Option (List Nat)
  | [] => some []
  | [_] => none
  | a :: b :: rest =>
    match fromHexChar a, fromHexChar b, hexDecode rest with
    | some ha, some hb, some t => some ((ha * 16 + hb) :: t)
    | _, _, _ => none

/-- The write-back loop of `setValue`'s fixed-byte-array case:
`for n := f.Len() - 1; n >= 0 && n >= f.Len()-len(vh); n-- {
f.Index(n).SetUint(uint64(vh[n])) }` — note it indexes `vh` by the
array index `n`; when `n ≥ len(vh)` that is a Go runtime panic. -/
def setArrLoop (vh : List Nat) (L : Nat) (arr : List Nat) (n : Int) :
    GoResult Unit (List Nat) :=
  if n ≥ 0 ∧ n ≥ (L : Int) - vh.length then
    match vh[n.toNat]? with
    | none => .panicked
    | some b => setArrLoop vh L (arr.set n.toNat b) (n - 1)
  else .ok arr
termination_by (n + 1).toNat
decreasing_by
  omega

/-- The fixed-byte-array case of `keyvalue.setValue`: hex-decode the
value, then run the write-back loop from index `f.Len() - 1`. -/
def setValueByteArray (L : Nat) (arr value : List Nat) : GoResult Unit (List Nat) :=
  match hexDecode value with
  | none => .err ()
  | some vh => setArrLoop vh L arr ((L : Int) - 1)

/-- C8: for every non-empty decoded value strictly shorter than the
array, the write-back loop's very first iteration indexes `vh` out of
range — `setValue` panics instead of right-aligning with zero fill. -/
theorem setValueByteArray_short_panics (L : Nat) (arr value vh : List Nat)
    (hdec : hexDecode value = some vh) (h0 : 0 < vh.length) (hlt : vh.length < L) :
    setValueByteArray L arr value = .panicked := by
  rw [setValueByteArray, hdec]
  simp only []
  rw [setArrLoop.eq_def]
  rw [if_pos (by constructor <;> omega)]
  have hnone : vh[((L : Int) - 1).toNat]? = none := by
    rw [List.getElem?_eq_none_iff]
    omega
  rw [hnone]

/-- Witness: a 4-byte array field receiving the two-byte hex value
`"abcd"` (bytes `[97, 98, 99, 100]`) panics. -/
theorem setValueByteArray_short_panics_witness :
    setValueByteArray 4 [0, 0, 0, 0] [97, 98, 99, 100] = .panicked :=
  setValueByteArray_short_panics 4 [0, 0, 0, 0] [97, 98, 99, 100] [171, 205]
    (by decide) (by decide) (by decide)

/-! ## mndx filename tree (`src/unnamed/part_008`, package `mndx`) -/

/-- Go strings are byte slices; paths here are lists of bytes. -/
abbrev GoStr := List Nat

/-- Go `strings.ToLower` on the ASCII domain the repository's paths
live in (maps `A`-`Z` to `a`-`z`, leaves other bytes alone). -/
def strToLower (s : GoStr) : GoStr :=
  s.map fun c => if 65 ≤ c ∧ c ≤ 90 then c + 32 else c

/-- Go `strings.Split(s, "/")`. -/
def strSplitSlash : GoStr → List GoStr
  | [] => [[]]
  | c :: rest =>
    if c = 47 then [] :: strSplitSlash rest
    else
      match strSplitSlash rest with
      | [] => [[c]]
      | h :: t => (c :: h) :: t

/-- Go `strings.TrimLeft(s, "/")`. -/
def trimLeftSlash : GoStr → GoStr
  | [] => []
  | c :: rest => if c = 47 then trimLeftSlash rest else c :: rest

/-- The backtracking index scan in `path.Clean`'s `..` case:
`for out.w > dotdot && out.index(out.w) != '/' { out.w-- }`. -/
def cleanBackIdx (out : GoStr) (dotdot : Nat) : Nat → Nat
  | 0 => 0
  | w + 1 =>
    if w + 1 > dotdot ∧ out.getD (w + 1) 0 ≠ 47 then cleanBackIdx out dotdot w
    else w + 1

/-- The main scan loop of Go `path.Clean`, ported byte-for-byte:
slashes are skipped, `.` elements dropped, `..` backtracks (or is kept
when not rooted and nothing to pop), and other bytes are copied as a
segment preceded by a slash separator. -/
def cleanLoop (rooted : Bool) : Nat → GoStr → GoStr → Nat → GoStr
  | 0, _, out, _ => out
  | fuel + 1, rem, out, dotdot =>
    match rem with
    | [] => out
    | c :: rest =>
      if c = 47 then cleanLoop rooted fuel rest out dotdot
      else if c = 46 ∧ (rest = [] ∨ rest.headD 0 = 47) then
        cleanLoop rooted fuel rest out dotdot
      else if c = 46 ∧ rest.headD 0 = 46 ∧
          (rest.drop 1 = [] ∨ (rest.drop 1).headD 0 = 47) then
        if out.length > dotdot then
          cleanLoop rooted fuel (rest.drop 1)
            (out.take (cleanBackIdx out dotdot (out.length - 1))) dotdot
        else if ¬ rooted then
          cleanLoop rooted fuel (rest.drop 1)
            ((if out.length > 0 then out ++ [47] else out) ++ [46, 46])
            ((if out.length > 0 then out ++ [47] else out) ++ [46, 46]).length
        else cleanLoop rooted fuel (rest.drop 1) out dotdot
      else
        cleanLoop rooted fuel ((c :: rest).dropWhile fun x => x ≠ 47)
          ((if (rooted ∧ out.length ≠ 1) ∨ (¬ rooted ∧ out.length ≠ 0) then out ++ [47]
            else out) ++ (c :: rest).takeWhile fun x => x ≠ 47)
          dotdot

/-- Go `path.Clean` over bytes. -/
def pathClean (p : GoStr) : GoStr :=
  if p = [] then [46]
  else if p.headD 0 = 47 then
    let out := cleanLoop true p.length (p.drop 1) [47] 1
    if out.length = 0 then [46] else out
  else
    let out := cleanLoop false p.length p [] 0
    if out.length = 0 then [46] else out

/-- The bytes after the final slash (`path.Split`'s file part). -/
def afterLastSlash (p : GoStr) : GoStr :=
  (p.reverse.takeWhile fun c => c ≠ 47).reverse

/-- Go `path.Dir`: everything up to and including the final slash,
cleaned. -/
def pathDir (p : GoStr) : GoStr :=
  pathClean (p.take (p.length - (afterLastSlash p).length))

/-- Go `path.Base`. -/
def pathBase (p : GoStr) : GoStr :=
  if p = [] then [46]
  else
    let q := (p.reverse.dropWhile fun c => c = 47).reverse
    if q = [] then [47]
    else afterLastSlash q

/-- `mndx.TreeFile`: file metadata kept in the tree. -/
structure TreeFile where
  size : Nat
  localeFlags : Nat
  fileDataID : Nat
  encodingKey : List Nat
deriving DecidableEq, Repr

/-- `mndx.File` (from `part_005`): the flat filename-map entry. -/
structure MFile where
  name : GoStr
  size : Nat
  localeFlags : Nat
  fileDataID : Nat
  encodingKey : List Nat
deriving DecidableEq, Repr

/-- `mndx.newTreeFile`. -/
def newTreeFile (f : MFile) : TreeFile :=
  ⟨f.size, f.localeFlags, f.fileDataID, f.encodingKey⟩

mutual
/-- `mndx.TreeDirectory`: `dents` is the build-time map keyed by
case-folded name; `flatDents` is the sorted array installed by
`flatten` (`none` models the nil slice). -/
inductive TreeDirectory where
  | mk (dents : List (GoStr × TreeEntry)) (flatDents : Option (List TreeEntry))

/-- `mndx.TreeDirectoryEntry`. -/
inductive TreeEntry where
  | mk (name : GoStr) (dir : Option TreeDirectory) (file : Option TreeFile)
end

def TreeEntry.nameOf : TreeEntry → GoStr
  | ⟨n, _, _⟩ => n

def TreeEntry.dirOf : TreeEntry → Option TreeDirectory
  | ⟨_, d, _⟩ => d

def TreeEntry.fileOf : TreeEntry → Option TreeFile
  | ⟨_, _, f⟩ => f

def TreeDirectory.dentsOf : TreeDirectory → List (GoStr × TreeEntry)
  | ⟨d, _⟩ => d

def TreeDirectory.flatOf : TreeDirectory → Option (List TreeEntry)
  | ⟨_, f⟩ => f

/-- `mndx` error constants. -/
inductive MndxErr where
  | dirFileNameClash
  | exists
  | notExists
  | notADirectory
deriving DecidableEq, Repr

/-- First-match lookup in the `dents` map. -/
def dentsLookup (dents : List (GoStr × TreeEntry)) (k : GoStr) : Option TreeEntry :=
  match dents.find? fun p => p.1 = k with
  | some p => some p.2
  | none => none

/-- Map insert for `dents` (replace existing key, else append). -/
def dentsInsert (dents : List (GoStr × TreeEntry)) (k : GoStr) (v : TreeEntry) :
    List (GoStr × TreeEntry) :=
  match dents with
  | [] => [(k, v)]
  | p :: rest => if p.1 = k then (k, v) :: rest else p :: dentsInsert rest k v

/-- `TreeDirectory.mkdirs` followed by `addFile` at the final
directory, rebuilding the tree along the walked path (the Go code
mutates through pointers). -/
def mkdirsAdd : TreeDirectory → List GoStr → GoStr → TreeFile →
    Except MndxErr TreeDirectory
  | ⟨dents, flat⟩, [], name, f =>
    match dentsLookup dents (strToLower name) with
    | some _ => .error .exists
    | none => .ok ⟨dentsInsert dents (strToLower name) ⟨name, none, some f⟩, flat⟩
  | ⟨dents, flat⟩, seg :: rest, name, f =>
    match dentsLookup dents (strToLower seg) with
    | none =>
      match mkdirsAdd ⟨[], none⟩ rest name f with
      | .error e => .error e
      | .ok child => .ok ⟨dentsInsert dents (strToLower seg) ⟨seg, some child, none⟩, flat⟩
    | some e =>
      match e.dirOf with
      | none => .error .dirFileNameClash
      | some d =>
        match mkdirsAdd d rest name f with
        | .error e2 => .error e2
        | .ok child =>
          .ok ⟨dentsInsert dents (strToLower seg) ⟨e.nameOf, some child, e.fileOf⟩, flat⟩

/-- Insertion into a name-sorted entry list; names are pairwise
distinct (the `dents` map is keyed by folded name), so this is the
unique permutation `sort.Sort(dents)` produces under
`TreeDents.Less(i, j) = td[i].Name < td[j].Name`. -/
def dentSortInsert (e : TreeEntry) : List TreeEntry → List TreeEntry
  | [] => [e]
  | x :: xs => if hashLess e.nameOf x.nameOf then e :: x :: xs else x :: dentSortInsert e xs

def sortDents (l : List TreeEntry) : List TreeEntry := l.foldr dentSortInsert []

mutual
/-- `TreeDirectory.flatten`: collect the map values, flatten child
directories, sort by raw `Name`, clear `dents`. -/
def flattenDir : TreeDirectory → TreeDirectory
  | ⟨dents, flat⟩ =>
    match flat with
    | some fl => ⟨dents, some fl⟩
    | none => ⟨[], some (sortDents (flattenDents dents))⟩

def flattenDents : List (GoStr × TreeEntry) → List TreeEntry
  | [] => []
  | (_, e) :: rest => flattenEntry e :: flattenDents rest

def flattenEntry : TreeEntry → TreeEntry
  | ⟨name, none, file⟩ => ⟨name, none, file⟩
  | ⟨name, some d, file⟩ => ⟨name, some (flattenDir d), file⟩
end

/-- `TreeDirectory.get`: per-segment binary search over `flatDents`
comparing case-folded names; the Go code would panic on an empty
segment list (unreachable from `Get`). -/
def getPath : TreeDirectory → List GoStr → GoResult MndxErr TreeEntry
  | _, [] => .panicked
  | td, seg :: rest =>
    let flat := td.flatOf.getD []
    let i := sortSearch flat.length fun n =>
      ! hashLess (strToLower ((flat.getD n ⟨[], none, none⟩).nameOf)) (strToLower seg)
    if h : i < flat.length then
      let dent := flat.get ⟨i, h⟩
      if strToLower dent.nameOf ≠ strToLower seg then .err .notExists
      else if rest.isEmpty then .ok dent
      else
        match dent.dirOf with
        | none => .err .notADirectory
        | some d => getPath d rest
    else .err .notExists

/-- `TreeDirectory.Get`: clean and split the path, then walk. -/
def treeGet (td : TreeDirectory) (filePath : GoStr) : GoResult MndxErr TreeEntry :=
  getPath td (strSplitSlash (trimLeftSlash (pathClean filePath)))

/-- The per-entry loop body of `mndx.ToTree`. -/
def toTreeLoop : List (GoStr × MFile) → TreeDirectory → Except MndxErr TreeDirectory
  | [], root => .ok root
  | (fp, f) :: rest, root =>
    match mkdirsAdd root
        (strSplitSlash (pathDir (trimLeftSlash (pathClean fp))))
        (pathBase (trimLeftSlash (pathClean fp))) (newTreeFile f) with
    | .error e => .error e
    | .ok root2 => toTreeLoop rest root2

/-- `mndx.ToTree`: insert every file, then flatten the root.  The Go
`FilenameMap` is a map with unspecified iteration order; it is
embedded as an association list in a fixed order. -/
def ToTree (fileMap : List (GoStr × MFile)) : Except MndxErr TreeDirectory :=
  match toTreeLoop fileMap ⟨[], none⟩ with
  | .error e => .error e
  | .ok root => .ok (flattenDir root)

/-- `ToTree` followed by `Get` (panic marker when construction fails,
which the theorem's input never does). -/
def toTreeGet (fileMap : List (GoStr × MFile)) (p : GoStr) : GoResult MndxErr TreeEntry :=
  match ToTree fileMap with
  | .error _ => .panicked
  | .ok root => treeGet root p

def mndxFileCE1 : MFile := ⟨[66], 1, 0, 0, List.replicate 16 1⟩

def mndxFileCE2 : MFile := ⟨[97], 2, 0, 0, List.replicate 16 2⟩

/-- Mixed-case sibling names under one directory: `d/B` and `d/a`. -/
def mndxMapCE : List (GoStr × MFile) :=
  [([100, 47, 66], mndxFileCE1), ([100, 47, 97], mndxFileCE2)]

/-- C9: `flatten` sorts siblings by raw byte order (`TreeDents.Less`
compares `Name`, not the folded name), so `B` (0x42) precedes `a`
(0x61) although their folded names order the other way; the binary
search in `get` assumes folded order and misses both inserted paths
`d/a` and `d/B`, while the directory `d` itself is found with its
children stored in raw order `[B, a]`. -/
theorem mndx_get_misses_inserted_path :
    toTreeGet mndxMapCE [100, 47, 97] = .err .notExists ∧
    (mndxMapCE.map Prod.fst).contains [100, 47, 97] = true ∧
    toTreeGet mndxMapCE [100, 47, 66] = .err .notExists ∧
    (mndxMapCE.map Prod.fst).contains [100, 47, 66] = true ∧
    toTreeGet mndxMapCE [100] =
      .ok ⟨[100], some ⟨[], some
        [⟨[66], none, some (newTreeFile mndxFileCE1)⟩,
         ⟨[97], none, some (newTreeFile mndxFileCE2)⟩]⟩, none⟩ := by
  refine ⟨rfl, rfl, rfl, rfl, rfl⟩

/-! ## Server datastore (`src/server/datastore.go`) -/

/-- Generic association-list lookup (first match), embedding a Go map
read. -/
def mapFind {κ α : Type} [DecidableEq κ] (m : List (κ × α)) (k : κ) : Option α :=
  match m.find? fun p => decide (p.1 = k) with
  | some p => some p.2
  | none => none

/-- Association-list write (replace the existing key, else append),
embedding a Go map write. -/
def mapSet {κ α : Type} [DecidableEq κ] (m : List (κ × α)) (k : κ) (v : α) :
    List (κ × α) :=
  match m with
  | [] => [(k, v)]
  | p :: rest => if p.1 = k then (k, v) :: rest else p :: mapSet rest k v

/-- Two-level read `m[p][r]` (a missing outer map reads as a nil inner
map, which yields the zero value). -/
def mapFind2 {α : Type} (m : List (String × List (String × α))) (p r : String) :
    Option α :=
  match mapFind m p with
  | some rs => mapFind rs r
  | none => none

/-- Two-level write `m[p][r] = v`.  In Go, writing into a nil inner
map panics; `datastore.Track` always pre-creates the inner maps for
every pair it adds to `tracking`, so the write is only reached with
the inner map present — the missing-outer branch here is the
`Track`-created empty map. -/
def mapSet2 {α : Type} (m : List (String × List (String × α))) (p r : String)
    (v : α) : List (String × List (String × α)) :=
  match mapFind m p with
  | some rs => mapSet m p (mapSet rs r v)
  | none => mapSet m p [(r, v)]

/-- `ngdp.CDNInfo`. -/
structure CDNInfo where
  name : String
  path : String
  hosts : List String
  configPath : String
deriving DecidableEq, Repr

/-- `ngdp.VersionInfo`. -/
structure VersionInfo where
  region : String
  buildConfig : List Nat
  cdnConfig : List Nat
  buildID : Int
  versionsName : String
  productConfig : List Nat
deriving DecidableEq, Repr

/-- `ngdp.BuildConfigEncoding`. -/
structure BuildConfigEncoding where
  contentHash : List Nat
  cdnHash : List Nat
deriving DecidableEq, Repr

/-- `ngdp.BuildConfigEncodingSize`. -/
structure BuildConfigEncodingSize where
  uncompressedSize : Nat
  compressedSize : Nat
deriving DecidableEq, Repr

/-- `ngdp.BuildConfig`. -/
structure BuildConfig where
  root : List Nat
  install : List Nat
  installSize : Nat
  download : List Nat
  downloadSize : Nat
  encoding : BuildConfigEncoding
  encodingSize : BuildConfigEncodingSize
  patch : List Nat
  patchSize : Nat
  patchConfig : List Nat
deriving DecidableEq, Repr

/-- `ngdp.CDNConfig`. -/
structure CDNConfig where
  archives : List (List Nat)
  archiveGroup : List Nat
  patchArchives : List (List Nat)
  patchArchiveGroup : List Nat
deriving DecidableEq, Repr

/-- `client.ArchiveEntry` (from `part_000`). -/
structure ArchiveEntry where
  archive : List Nat
  size : Nat
  offset : Nat
deriving DecidableEq, Repr

/-- `client.ArchiveMapper` (from `part_000`): a map from CDN hash to
archive location. -/
structure ArchiveMapper where
  entries : List (List Nat × ArchiveEntry)
deriving DecidableEq, Repr

/-- The fields of `server.datastore` guarded by its lock (the
`LowLevelClient` is passed separately as the network oracle). -/
structure DSState where
  tracking : List (String × String)
  cdnInfos : List (String × List (String × CDNInfo))
  versionInfos : List (String × List (String × VersionInfo))
  buildConfigs : List (List Nat × BuildConfig)
  cdnConfigs : List (List Nat × CDNConfig)
  encodingMappers : List (List Nat × EncMapper)
  filenameMappers : List (List Nat × TreeDirectory)
  archiveMappers : List (List Nat × ArchiveMapper)

/-- The network-facing operations `datastore` composes
(`LowLevelClient.Info`, `.Configs`, `.Mappers`, and `.Fetch` followed
by the opaque cgo `mndx.Parse`), modelled as oracles returning either
an error string or their results. -/
structure LLC where
  info : String → String → Except String (CDNInfo × VersionInfo)
  configs : CDNInfo → VersionInfo → Except String (CDNConfig × BuildConfig)
  mappers : CDNInfo → CDNConfig → BuildConfig → Except String (EncMapper × ArchiveMapper)
  fetchParseRoot : CDNInfo → List Nat → Except String (List (GoStr × MFile))

/-- `datastore.Track`: initialize missing inner maps for the program,
then append the pair to `tracking` — unconditionally. -/
def Track (d : DSState) (region program : String) : DSState :=
  let d1 := if (mapFind d.cdnInfos program).isSome then d
            else { d with cdnInfos := mapSet d.cdnInfos program [] }
  let d2 := if (mapFind d1.versionInfos program).isSome then d1
            else { d1 with versionInfos := mapSet d1.versionInfos program [] }
  { d2 with tracking := d2.tracking ++ [(region, program)] }

/-- The final lines of `datastore.update`: install the fresh `CDNInfo`
and `VersionInfo` under the writer lock and return nil. -/
def commitInfo (d : DSState) (region program : String) (cdn : CDNInfo)
    (version : VersionInfo) : DSState × Option String :=
  ({ d with cdnInfos := mapSet2 d.cdnInfos program region cdn,
            versionInfos := mapSet2 d.versionInfos program region version }, none)

/-- Steps 4-5 of `datastore.update`: build the filename mapper if it
is missing (root hash via the encoding mapper, fetch + cgo parse,
`mndx.ToTree`), then commit. -/
def updateFilename (llc : LLC) (d : DSState) (region program : String) (cdn : CDNInfo)
    (version : VersionInfo) (buildConfig : BuildConfig) (encodingMapper : EncMapper) :
    DSState × Option String :=
  match mapFind d.filenameMappers version.buildConfig with
  | some _ => commitInfo d region program cdn version
  | none =>
    match ToCDNHash encodingMapper buildConfig.root with
    | .error _ => (d, some "mapping root file hash to CDN hash")
    | .ok rootCDNHash =>
      match llc.fetchParseRoot cdn rootCDNHash with
      | .error e => (d, some e)
      | .ok fileMap =>
        match ToTree fileMap with
        | .error _ => (d, some "treeifying filename map")
        | .ok tree =>
          commitInfo
            { d with filenameMappers := mapSet d.filenameMappers version.buildConfig tree }
            region program cdn version

/-- Step 3 of `datastore.update`: build the encoding and archive
mappers together when either is missing. -/
def updateMappers (llc : LLC) (d : DSState) (region program : String) (cdn : CDNInfo)
    (version : VersionInfo) (buildConfig : BuildConfig) (cdnConfig : CDNConfig) :
    DSState × Option String :=
  match mapFind d.encodingMappers version.buildConfig,
        mapFind d.archiveMappers version.cdnConfig with
  | some em, some _ =>
    updateFilename llc d region program cdn version buildConfig em
  | _, _ =>
    match llc.mappers cdn cdnConfig buildConfig with
    | .error e => (d, some e)
    | .ok (em, am) =>
      updateFilename llc
        { d with encodingMappers := mapSet d.encodingMappers version.buildConfig em,
                 archiveMappers := mapSet d.archiveMappers version.cdnConfig am }
        region program cdn version buildConfig em

/-- `datastore.update` for one `(region, program)` pair: fetch info,
fill the build/CDN-config caches, the mapper caches and the filename
mapper as needed, then commit; any error leaves the state built so
far in place and is returned. -/
def updatePair (llc : LLC) (d : DSState) (region program : String) :
    DSState × Option String :=
  match llc.info program region with
  | .error e => (d, some e)
  | .ok (cdn, version) =>
    match mapFind d.buildConfigs version.buildConfig,
          mapFind d.cdnConfigs version.cdnConfig with
    | some bc, some cc => updateMappers llc d region program cdn version bc cc
    | _, _ =>
      match llc.configs cdn version with
      | .error e => (d, some e)
      | .ok (ccS, bcS) =>
        updateMappers llc
          { d with buildConfigs := mapSet d.buildConfigs version.buildConfig bcS,
                   cdnConfigs := mapSet d.cdnConfigs version.cdnConfig ccS }
          region program cdn version bcS ccS

/-- All build-config hashes referenced from `versionInfos`
(`usedBuildConfigs` in `datastore.Update`). -/
def usedBuildConfigs (d : DSState) : List (List Nat) :=
  (d.versionInfos.map fun pr => pr.2.map fun rv => rv.2.buildConfig).flatten

/-- All CDN-config hashes referenced from `versionInfos`. -/
def usedCDNConfigs (d : DSState) : List (List Nat) :=
  (d.versionInfos.map fun pr => pr.2.map fun rv => rv.2.cdnConfig).flatten

/-- The eviction pass at the end of `datastore.Update`: drop every
cache entry whose key is not referenced from `versionInfos`. -/
def evict (d : DSState) : DSState :=
  { d with
    buildConfigs := d.buildConfigs.filter fun kv => (usedBuildConfigs d).contains kv.1,
    cdnConfigs := d.cdnConfigs.filter fun kv => (usedCDNConfigs d).contains kv.1,
    encodingMappers := d.encodingMappers.filter fun kv =>
      (usedBuildConfigs d).contains kv.1,
    filenameMappers := d.filenameMappers.filter fun kv =>
      (usedBuildConfigs d).contains kv.1,
    archiveMappers := d.archiveMappers.filter fun kv => (usedCDNConfigs d).contains kv.1 }

/-- The per-pair loop of `datastore.Update`: `err` is overwritten by
every iteration (`err = d.update(...)`), so only the final pair's
result survives. -/
def updateLoop (llc : LLC) : List (String × String) → DSState → Option String →
    DSState × Option String
  | [], d, err => (d, err)
  | (r, p) :: rest, d, _ =>
    updateLoop llc rest (updatePair llc d r p).1 (updatePair llc d r p).2

/-- `datastore.Update`: snapshot `tracking`, update every pair in
order (continuing past failures), evict unreferenced caches, and
return the last iteration's error value. -/
def Update (llc : LLC) (d : DSState) : DSState × Option String :=
  (evict (updateLoop llc d.tracking d none).1, (updateLoop llc d.tracking d none).2)

/-- The error values of `datastore.Client`. -/
inductive ClientErr where
  | cdnInfoMissing
  | versionInfoMissing
  | buildConfigMissing
  | cdnConfigMissing
  | encodingMapperMissing
  | filenameMapperMissing
  | archiveMapperMissing
deriving DecidableEq, Repr

/-- The `client.Client` fields `datastore.Client` assembles. -/
structure ClientSnapshot where
  cdnInfo : CDNInfo
  versionInfo : VersionInfo
  buildConfig : BuildConfig
  cdnConfig : CDNConfig
  archiveMapper : ArchiveMapper
  encodingMapper : EncMapper
  filenameMapper : TreeDirectory

/-- `datastore.Client`.  The source reads
`versionInfo := d.versionInfos[program][region]` in the single-value
form and re-tests the *stale* `ok` from the `cdnInfos` lookup, so the
"VersionInfo missing" error is unreachable; a missing `VersionInfo`
flows into `versionInfo.BuildConfig`, a nil-pointer dereference —
modelled as `panicked`. -/
def Client (d : DSState) (region program : String) : GoResult ClientErr ClientSnapshot :=
  match mapFind2 d.cdnInfos program region with
  | none => .err .cdnInfoMissing
  | some cdnInfo =>
    match mapFind2 d.versionInfos program region with
    | none => .panicked
    | some versionInfo =>
      match mapFind d.buildConfigs versionInfo.buildConfig with
      | none => .err .buildConfigMissing
      | some buildConfig =>
        match mapFind d.cdnConfigs versionInfo.cdnConfig with
        | none => .err .cdnConfigMissing
        | some cdnConfig =>
          match mapFind d.encodingMappers versionInfo.buildConfig with
          | none => .err .encodingMapperMissing
          | some encodingMapper =>
            match mapFind d.filenameMappers versionInfo.buildConfig with
            | none => .err .filenameMapperMissing
            | some filenameMapper =>
              match mapFind d.archiveMappers versionInfo.cdnConfig with
              | none => .err .archiveMapperMissing
              | some archiveMapper =>
                .ok ⟨cdnInfo, versionInfo, buildConfig, cdnConfig,
                     archiveMapper, encodingMapper, filenameMapper⟩

/-- The state `newDatastore` starts from: empty tracking list and
empty caches. -/
def dsEmpty : DSState := ⟨[], [], [], [], [], [], [], []⟩

theorem Track_eq (d : DSState) (r p : String) :
    Track d r p =
      { d with
        cdnInfos := if (mapFind d.cdnInfos p).isSome then d.cdnInfos
                    else mapSet d.cdnInfos p [],
        versionInfos := if (mapFind d.versionInfos p).isSome then d.versionInfos
                        else mapSet d.versionInfos p [],
        tracking := d.tracking ++ [(r, p)] } := by
  unfold Track
  by_cases h1 : (mapFind d.cdnInfos p).isSome <;>
    by_cases h2 : (mapFind d.versionInfos p).isSome <;>
      simp [h1, h2]

/-- C5 (amended): `datastore.Track` appends the `(region, program)`
pair to `tracking` unconditionally — it contains no membership test —
and leaves every cache other than the two inner-map initialisations
untouched.  In particular calling it twice stores the pair twice, so
it is not idempotent. -/
theorem Track_appends_pair (d : DSState) (r p : String) :
    (Track d r p).tracking = d.tracking ++ [(r, p)] ∧
    (Track d r p).buildConfigs = d.buildConfigs ∧
    (Track d r p).cdnConfigs = d.cdnConfigs ∧
    (Track d r p).encodingMappers = d.encodingMappers ∧
    (Track d r p).filenameMappers = d.filenameMappers ∧
    (Track d r p).archiveMappers = d.archiveMappers := by
  rw [Track_eq]
  exact ⟨rfl, rfl, rfl, rfl, rfl, rfl⟩

/-- C5 counterexample: tracking the same pair twice from the fresh
datastore does not give the same state as tracking it once — the
tracking list holds the pair twice. -/
theorem Track_not_idempotent :
    Track (Track dsEmpty "eu" "hero") "eu" "hero" ≠ Track dsEmpty "eu" "hero" := by
  intro h
  have h2 := congrArg (fun s => s.tracking.length) h
  have ha : (Track (Track dsEmpty "eu" "hero") "eu" "hero").tracking.length = 2 := by
    rw [Track_eq, Track_eq]; rfl
  have hb : (Track dsEmpty "eu" "hero").tracking.length = 1 := by
    rw [Track_eq]; rfl
  simp only at h2
  rw [ha, hb] at h2
  exact absurd h2 (by decide)

/-- C10: whenever `cdnInfos[program][region]` is present but
`versionInfos[program][region]` is absent, `datastore.Client` hits
the nil-pointer dereference (the `ok` it re-tests after the
`versionInfos` lookup is the stale one from the `cdnInfos` lookup),
rather than returning the "VersionInfo missing" error. -/
theorem Client_missing_version_panics (d : DSState) (r p : String)
    (hc : (mapFind2 d.cdnInfos p r).isSome = true)
    (hv : mapFind2 d.versionInfos p r = none) :
    Client d r p = .panicked := by
  obtain ⟨ci, hci⟩ := Option.isSome_iff_exists.mp hc
  unfold Client
  rw [hci, hv]

/-- A datastore state with the CDN info for `("eu", "hero")` present
but its version info absent (the shape `Track` leaves behind before
the first successful update commits, had the CDN info been filled
another way). -/
def clientStateCE : DSState :=
  { dsEmpty with
    cdnInfos := [("hero", [("eu", ⟨"n", "p", [], "c"⟩)])],
    versionInfos := [("hero", [])] }

theorem Client_missing_version_panics_witness :
    (mapFind2 clientStateCE.cdnInfos "hero" "eu").isSome = true ∧
    mapFind2 clientStateCE.versionInfos "hero" "eu" = none ∧
    Client clientStateCE "eu" "hero" = .panicked :=
  ⟨rfl, rfl, Client_missing_version_panics clientStateCE "eu" "hero" rfl rfl⟩

/-- A concrete CDN info record. -/
def cdnCE : CDNInfo := ⟨"n", "p", [], "c"⟩

/-- A concrete version record pointing at build config `[1]` and CDN
config `[2]`. -/
def versionCE : VersionInfo := ⟨"r2", [1], [2], 7, "v", [3]⟩

/-- A `LowLevelClient` oracle that answers only for the pair
`("p2", "r2")` and fails everything else. -/
def llcCE : LLC :=
  { info := fun p r => if p = "p2" ∧ r = "r2" then .ok (cdnCE, versionCE) else .error "boom",
    configs := fun _ _ => .error "cfg",
    mappers := fun _ _ _ => .error "map",
    fetchParseRoot := fun _ _ => .error "root" }

/-- A datastore tracking `("r1","p1")` then `("r2","p2")`, with every
cache the second pair needs already warm, so its update succeeds
without touching the failing oracle calls. -/
def dsCE : DSState :=
  ⟨[("r1", "p1"), ("r2", "p2")], [], [],
   [([1], ⟨[], [], 0, [], 0, ⟨[], []⟩, ⟨0, 0⟩, [], 0, []⟩)],
   [([2], ⟨[], [], [], []⟩)],
   [([1], ⟨[]⟩)],
   [([1], ⟨[], none⟩)],
   [([2], ⟨[]⟩)]⟩

/-- C6 counterexample: with `dsCE`/`llcCE` the first tracked pair's
update fails with "boom", yet `Update` returns nil because the error
variable is overwritten by the succeeding second iteration. -/
theorem Update_drops_first_error :
    (updatePair llcCE dsCE "r1" "p1").2 = some "boom" ∧
    (Update llcCE dsCE).2 = none :=
  ⟨rfl, rfl⟩

/-- The state after updating a list of pairs in order, ignoring the
per-pair error results (the loop body of `datastore.Update` never
reads `err`). -/
def foldPairs (llc : LLC) : List (String × String) → DSState → DSState
  | [], d => d
  | (r, p) :: rest, d => foldPairs llc rest (updatePair llc d r p).1

theorem updateLoop_last (llc : LLC) (r p : String) (xs : List (String × String)) :
    ∀ (d : DSState) (e : Option String),
      updateLoop llc (xs ++ [(r, p)]) d e = updatePair llc (foldPairs llc xs d) r p := by
  induction xs with
  | nil => intro d e; rfl
  | cons q rest ih =>
    intro d e
    obtain ⟨r0, p0⟩ := q
    exact ih (updatePair llc d r0 p0).1 (updatePair llc d r0 p0).2

/-- C6 (amended): `datastore.Update` processes every tracked pair in
order regardless of earlier failures, but the error it returns is
exactly the result of the FINAL pair's update — an earlier pair's
error is overwritten, so the return value is nil whenever the last
pair succeeds, even if earlier pairs failed. -/
theorem Update_error_is_last (llc : LLC) (d : DSState) (xs : List (String × String))
    (r p : String) (h : d.tracking = xs ++ [(r, p)]) :
    (Update llc d).1 = evict (updatePair llc (foldPairs llc xs d) r p).1 ∧
    (Update llc d).2 = (updatePair llc (foldPairs llc xs d) r p).2 := by
  unfold Update
  rw [h, updateLoop_last]
  exact ⟨rfl, rfl⟩

theorem Update_error_is_last_witness :
    dsCE.tracking = [("r1", "p1")] ++ [("r2", "p2")] ∧
    (Update llcCE dsCE).2 = (updatePair llcCE (foldPairs llcCE [("r1", "p1")] dsCE) "r2" "p2").2 :=
  ⟨rfl, (Update_error_is_last llcCE dsCE [("r1", "p1")] "r2" "p2" rfl).2⟩

theorem mapFind_mem {κ α : Type} [DecidableEq κ] {m : List (κ × α)} {k : κ} {v : α}
    (h : mapFind m k = some v) : (k, v) ∈ m := by
  unfold mapFind at h
  split at h
  · rename_i q hq
    injection h with h
    have hk := List.find?_some hq
    simp only [decide_eq_true_eq] at hk
    have hm := List.mem_of_find?_eq_some hq
    rw [← hk, ← h]
    exact hm
  · exact absurd h (by simp)

theorem mem_mapSet {κ α : Type} [DecidableEq κ] {m : List (κ × α)} {k : κ} {v : α}
    {q : κ × α} (h : q ∈ mapSet m k v) : q = (k, v) ∨ q ∈ m := by
  induction m with
  | nil =>
    unfold mapSet at h
    exact Or.inl (List.mem_singleton.mp h)
  | cons a rest ih =>
    unfold mapSet at h
    split at h
    · rcases List.mem_cons.mp h with h | h
      · exact Or.inl h
      · exact Or.inr (List.mem_cons_of_mem _ h)
    · rcases List.mem_cons.mp h with h | h
      · subst h
        exact Or.inr (List.mem_cons_self _ _)
      · rcases ih h with h | h
        · exact Or.inl h
        · exact Or.inr (List.mem_cons_of_mem _ h)

theorem mapSet2_inv {α : Type} {m : List (String × List (String × α))} {p0 r0 : String}
    {v0 : α} {T : List (String × String)} (hT : (r0, p0) ∈ T)
    (hI : ∀ p rs, (p, rs) ∈ m → ∀ r vi, (r, vi) ∈ rs → (r, p) ∈ T) :
    ∀ p rs, (p, rs) ∈ mapSet2 m p0 r0 v0 → ∀ r vi, (r, vi) ∈ rs → (r, p) ∈ T := by
  intro p rs hmem r vi hvi
  unfold mapSet2 at hmem
  split at hmem
  · rename_i rs0 hfind
    rcases mem_mapSet hmem with heq | hmem2
    · injection heq with hp hrs
      subst hp
      subst hrs
      rcases mem_mapSet hvi with heq2 | hvi2
      · injection heq2 with hr hv
        subst hr
        exact hT
      · exact hI p rs0 (mapFind_mem hfind) r vi hvi2
    · exact hI p rs hmem2 r vi hvi
  · rcases mem_mapSet hmem with heq | hmem2
    · injection heq with hp hrs
      subst hp
      subst hrs
      have heq2 := List.mem_singleton.mp hvi
      injection heq2 with hr hv
      subst hr
      exact hT
    · exact hI p rs hmem2 r vi hvi

theorem updatePair_versionInfos (llc : LLC) (d : DSState) (r p : String) :
    (updatePair llc d r p).1.versionInfos = d.versionInfos ∨
    ∃ v, (updatePair llc d r p).1.versionInfos = mapSet2 d.versionInfos p r v := by
  unfold updatePair updateMappers updateFilename commitInfo
  repeat' split
  all_goals first
    | exact Or.inl rfl
    | exact Or.inr ⟨_, rfl⟩

theorem updateLoop_inv (llc : LLC) (T : List (String × String)) (xs : List (String × String)) :
    ∀ (d : DSState) (e : Option String),
      (∀ q ∈ xs, q ∈ T) →
      (∀ p rs, (p, rs) ∈ d.versionInfos → ∀ r vi, (r, vi) ∈ rs → (r, p) ∈ T) →
      ∀ p rs, (p, rs) ∈ (updateLoop llc xs d e).1.versionInfos →
        ∀ r vi, (r, vi) ∈ rs → (r, p) ∈ T := by
  induction xs with
  | nil => intro d e _ hI; exact hI
  | cons q rest ih =>
    intro d e hsub hI
    obtain ⟨r0, p0⟩ := q
    exact ih (updatePair llc d r0 p0).1 (updatePair llc d r0 p0).2
      (fun q hq => hsub q (List.mem_cons_of_mem _ hq))
      (by
        rcases updatePair_versionInfos llc d r0 p0 with heq | ⟨v, heq⟩
        · rw [heq]; exact hI
        · rw [heq]; exact mapSet2_inv (hsub _ (List.mem_cons_self _ _)) hI)

theorem mem_usedBuildConfigs {d : DSState} {k : List Nat} (h : k ∈ usedBuildConfigs d) :
    ∃ p rs r vi, (p, rs) ∈ d.versionInfos ∧ (r, vi) ∈ rs ∧ vi.buildConfig = k := by
  unfold usedBuildConfigs at h
  rw [List.mem_flatten] at h
  obtain ⟨l, hl, hkl⟩ := h
  rw [List.mem_map] at hl
  obtain ⟨pr, hpr, rfl⟩ := hl
  rw [List.mem_map] at hkl
  obtain ⟨rv, hrv, hbc⟩ := hkl
  exact ⟨pr.1, pr.2, rv.1, rv.2, hpr, hrv, hbc⟩

theorem mem_usedCDNConfigs {d : DSState} {k : List Nat} (h : k ∈ usedCDNConfigs d) :
    ∃ p rs r vi, (p, rs) ∈ d.versionInfos ∧ (r, vi) ∈ rs ∧ vi.cdnConfig = k := by
  unfold usedCDNConfigs at h
  rw [List.mem_flatten] at h
  obtain ⟨l, hl, hkl⟩ := h
  rw [List.mem_map] at hl
  obtain ⟨pr, hpr, rfl⟩ := hl
  rw [List.mem_map] at hkl
  obtain ⟨rv, hrv, hbc⟩ := hkl
  exact ⟨pr.1, pr.2, rv.1, rv.2, hpr, hrv, hbc⟩

/-- A cache key `k` is reachable as the build config of some version
entry of `d` whose `(region, program)` pair is tracked in `T`. -/
def reachesBuild (d : DSState) (T : List (String × String)) (k : List Nat) : Prop :=
  ∃ p rs r vi, (p, rs) ∈ d.versionInfos ∧ (r, vi) ∈ rs ∧ (r, p) ∈ T ∧ vi.buildConfig = k

/-- A cache key `k` is reachable as the CDN config of some version
entry of `d` whose `(region, program)` pair is tracked in `T`. -/
def reachesCDN (d : DSState) (T : List (String × String)) (k : List Nat) : Prop :=
  ∃ p rs r vi, (p, rs) ∈ d.versionInfos ∧ (r, vi) ∈ rs ∧ (r, p) ∈ T ∧ vi.cdnConfig = k

theorem evict_buildKeys {d : DSState} {kv : List Nat × BuildConfig}
    (h : kv ∈ (evict d).buildConfigs) : kv.1 ∈ usedBuildConfigs d := by
  have h2 : kv ∈ d.buildConfigs.filter fun q => (usedBuildConfigs d).contains q.1 := h
  have h3 := (List.mem_filter.mp h2).2
  simpa using h3

theorem evict_encodingKeys {d : DSState} {kv : List Nat × EncMapper}
    (h : kv ∈ (evict d).encodingMappers) : kv.1 ∈ usedBuildConfigs d := by
  have h2 : kv ∈ d.encodingMappers.filter fun q => (usedBuildConfigs d).contains q.1 := h
  have h3 := (List.mem_filter.mp h2).2
  simpa using h3

theorem evict_filenameKeys {d : DSState} {kv : List Nat × TreeDirectory}
    (h : kv ∈ (evict d).filenameMappers) : kv.1 ∈ usedBuildConfigs d := by
  have h2 : kv ∈ d.filenameMappers.filter fun q => (usedBuildConfigs d).contains q.1 := h
  have h3 := (List.mem_filter.mp h2).2
  simpa using h3

theorem evict_cdnKeys {d : DSState} {kv : List Nat × CDNConfig}
    (h : kv ∈ (evict d).cdnConfigs) : kv.1 ∈ usedCDNConfigs d := by
  have h2 : kv ∈ d.cdnConfigs.filter fun q => (usedCDNConfigs d).contains q.1 := h
  have h3 := (List.mem_filter.mp h2).2
  simpa using h3

theorem evict_archiveKeys {d : DSState} {kv : List Nat × ArchiveMapper}
    (h : kv ∈ (evict d).archiveMappers) : kv.1 ∈ usedCDNConfigs d := by
  have h2 : kv ∈ d.archiveMappers.filter fun q => (usedCDNConfigs d).contains q.1 := h
  have h3 := (List.mem_filter.mp h2).2
  simpa using h3

/-- C7: after `datastore.Update` runs, provided every version entry
of the starting state belongs to a tracked pair, every key left in
`buildConfigs`, `encodingMappers` and `filenameMappers` is the
`BuildConfig` hash of `versionInfos[p][r]` for some tracked pair
`(r, p)`, and every key left in `cdnConfigs` and `archiveMappers` is
the `CDNConfig` hash of such an entry: the eviction pass leaves no
cached key unreachable from `versionInfos`. -/
theorem Update_keys_reachable (llc : LLC) (d : DSState)
    (hI : ∀ p rs, (p, rs) ∈ d.versionInfos → ∀ r vi, (r, vi) ∈ rs → (r, p) ∈ d.tracking) :
    (∀ kv ∈ (Update llc d).1.buildConfigs,
       reachesBuild (Update llc d).1 d.tracking kv.1) ∧
    (∀ kv ∈ (Update llc d).1.encodingMappers,
       reachesBuild (Update llc d).1 d.tracking kv.1) ∧
    (∀ kv ∈ (Update llc d).1.filenameMappers,
       reachesBuild (Update llc d).1 d.tracking kv.1) ∧
    (∀ kv ∈ (Update llc d).1.cdnConfigs,
       reachesCDN (Update llc d).1 d.tracking kv.1) ∧
    (∀ kv ∈ (Update llc d).1.archiveMappers,
       reachesCDN (Update llc d).1 d.tracking kv.1) := by
  have hloop := updateLoop_inv llc d.tracking d.tracking d none (fun q hq => hq) hI
  refine ⟨fun kv hkv => ?_, fun kv hkv => ?_, fun kv hkv => ?_,
          fun kv hkv => ?_, fun kv hkv => ?_⟩
  · obtain ⟨p, rs, r, vi, hprs, hrvi, hbc⟩ := mem_usedBuildConfigs (evict_buildKeys hkv)
    exact ⟨p, rs, r, vi, hprs, hrvi, hloop p rs hprs r vi hrvi, hbc⟩
  · obtain ⟨p, rs, r, vi, hprs, hrvi, hbc⟩ := mem_usedBuildConfigs (evict_encodingKeys hkv)
    exact ⟨p, rs, r, vi, hprs, hrvi, hloop p rs hprs r vi hrvi, hbc⟩
  · obtain ⟨p, rs, r, vi, hprs, hrvi, hbc⟩ := mem_usedBuildConfigs (evict_filenameKeys hkv)
    exact ⟨p, rs, r, vi, hprs, hrvi, hloop p rs hprs r vi hrvi, hbc⟩
  · obtain ⟨p, rs, r, vi, hprs, hrvi, hbc⟩ := mem_usedCDNConfigs (evict_cdnKeys hkv)
    exact ⟨p, rs, r, vi, hprs, hrvi, hloop p rs hprs r vi hrvi, hbc⟩
  · obtain ⟨p, rs, r, vi, hprs, hrvi, hbc⟩ := mem_usedCDNConfigs (evict_archiveKeys hkv)
    exact ⟨p, rs, r, vi, hprs, hrvi, hloop p rs hprs r vi hrvi, hbc⟩

theorem Update_keys_reachable_witness :
    (∀ p rs, (p, rs) ∈ dsCE.versionInfos → ∀ r vi, (r, vi) ∈ rs → (r, p) ∈ dsCE.tracking) ∧
    (∀ kv ∈ (Update llcCE dsCE).1.buildConfigs,
       reachesBuild (Update llcCE dsCE).1 dsCE.tracking kv.1) := by
  have hI : ∀ p rs, (p, rs) ∈ dsCE.versionInfos →
      ∀ r vi, (r, vi) ∈ rs → (r, p) ∈ dsCE.tracking := by
    intro p rs h
    exact absurd h (List.not_mem_nil _)
  exact ⟨hI, (Update_keys_reachable llcCE dsCE hI).1⟩
